import Mathlib

/-!
Verification development for the `start-secure` security-header library.

The TypeScript core is shallowly embedded as executable Lean definitions:
JavaScript strings are Lean `String`s, JS arrays are `List`s, and JS plain
objects (`Record<string, ...>`, whose string keys keep insertion order) are
association lists `List (String × _)` preserving key insertion order.
JS `Set<string>` (which also iterates in insertion order) is embedded as a
duplicate-free `List String` in insertion order.  Code that can throw a
runtime `TypeError` (calling `.filter` on a boolean rule value in
`buildCspHeader`) is embedded with `Option`, `none` standing for the throw.
-/

namespace StartSecure

/-- Character class of the JS regex `\s` (ASCII subset used by the library). -/
def isWs (c : Char) : Bool := c.isWhitespace

/-- `String.prototype.trim()` at the character-list level: drop leading and
trailing whitespace. -/
def charTrim (l : List Char) : List Char :=
  ((l.dropWhile isWs).reverse.dropWhile isWs).reverse

/-- `value.trim()` on a JS string. -/
def jsTrim (s : String) : String := ⟨charTrim s.data⟩

/-- Helper for `jsWords`: accumulate the current (reversed) run of
non-whitespace characters and cut a word at every whitespace character. -/
def charWordsAux : List Char → List Char → List (List Char)
  | cur, [] => if cur = [] then [] else [cur.reverse]
  | cur, c :: rest =>
    if isWs c then
      (if cur = [] then charWordsAux [] rest else cur.reverse :: charWordsAux [] rest)
    else charWordsAux (c :: cur) rest

/-- The combination `value.split(/\s+/)` followed by dropping empty /
whitespace-only fragments, as both merge paths apply it to string-valued
rule fields: the list of maximal non-whitespace runs of `s`. -/
def jsWords (s : String) : List String := (charWordsAux [] s.data).map fun l => ⟨l⟩

/-- A raw CSP rule field value: `string | readonly string[] | boolean`
(the empty string doubling as a boolean-directive enabler). -/
inductive RuleValue where
  | str (s : String)
  | list (vs : List String)
  | boolean (b : Bool)
deriving DecidableEq

/-- `CspRule` (types.ts): a record of directive fields; embedded as the list
of its present key/value entries in insertion order. -/
abbrev CspRule := List (String × RuleValue)

/-- `Record<string, string[]>`: directive table in key insertion order. -/
abbrev Table := List (String × List String)

/-- `directives[key]` (first, and in the code only, binding of `key`). -/
def getD : Table → String → Option (List String)
  | [], _ => none
  | (k, vs) :: t, key => if k = key then some vs else getD t key

/-- `directives[key] = vs`: overwrite in place, or append a new key. -/
def setD : Table → String → List String → Table
  | [], key, vs => [(key, vs)]
  | (k, w) :: t, key, vs => if k = key then (key, vs) :: t else (k, w) :: setD t key vs

/-- The token array of `key`, or `[]` when the key is absent. -/
def tokensT (t : Table) (key : String) : List String := (getD t key).getD []

/-- `!!directives[key]` (an empty array is truthy in JS). -/
def hasKey (t : Table) (key : String) : Bool := (getD t key).isSome

/-- The CSP keyword token `'none'` (with its surrounding single quotes). -/
def noneTok : String := "'none'"

/-- The metadata keys both merge loops skip
(`key === "description" || key === "source"`). -/
def skipKey (k : String) : Prop := k = "description" ∨ k = "source"

instance (k : String) : Decidable (skipKey k) := by
  unfold skipKey; infer_instance

/-- Whether a rule value is a boolean (the shape `buildCspHeader` throws on). -/
def isBoolV : RuleValue → Bool
  | .boolean _ => true
  | _ => false

/-- csp-builder.ts lines 83–86: normalize one rule value.  A string is split
on whitespace runs; an array is filtered by `v && v.trim() !== ""` (note:
surviving array elements are NOT trimmed); a boolean value reaches
`values.filter(...)` and throws a `TypeError` (embedded as `none`). -/
def normBuild : RuleValue → Option (List String)
  | .str s => some (jsWords s)
  | .list vs => some (vs.filter fun v => v != "" && jsTrim v != "")
  | .boolean _ => none

/-- csp-builder.ts lines 91–94 (Case 1): a list mixing `'none'` with other
values has every `'none'` removed. -/
def resolveCase1 (values : List String) : List String :=
  if values.length > 1 ∧ noneTok ∈ values then values.filter (fun v => v != noneTok)
  else values

/-- csp-builder.ts lines 108–112: push each value not already present. -/
def pushUnique (cur : List String) (v : String) : List String :=
  if v ≠ "" ∧ v ∉ cur then cur ++ [v] else cur

/-- The `for (const v of values)` addition loop. -/
def addAll (cur : List String) (values : List String) : List String :=
  values.foldl pushUnique cur

/-- One iteration of the merge loop of `buildCspHeader`
(csp-builder.ts lines 73–113) for the entry `(key, v)` of a rule. -/
def mergeField (t : Table) (key : String) (v : RuleValue) : Option Table :=
  if skipKey key then some t
  else
    let t1 := if hasKey t key then t else setD t key []
    match normBuild v with
    | none => none
    | some values0 =>
      let values := resolveCase1 values0
      if values = [noneTok] then some (setD t1 key [noneTok])
      else
        let cur := tokensT t1 key
        let cur1 :=
          if values ≠ [] ∧ noneTok ∈ cur then cur.filter (fun v => v != noneTok) else cur
        some (setD t1 key (addAll cur1 values))

/-- `for (const [key, value] of Object.entries(rule))`. -/
def mergeRule (t : Table) (r : CspRule) : Option Table :=
  r.foldlM (fun acc kv => mergeField acc kv.1 kv.2) t

/-- `for (const rule of rules)`. -/
def mergeAllRules (t : Table) (rules : List CspRule) : Option Table :=
  rules.foldlM mergeRule t

/-- The base directive table of `buildCspHeader`
(csp-builder.ts lines 21–69). -/
def baseTable (nonce : String) (isDev : Bool) : Table :=
  [ ("default-src", ["'self'"]),
    ("base-uri", ["'self'"]),
    ("child-src", [noneTok]),
    ("connect-src",
      if isDev then ["'self'", "ws://localhost:*", "wss://localhost:*"] else ["'self'"]),
    ("font-src", ["'self'"]),
    ("form-action", ["'self'"]),
    ("frame-ancestors", [noneTok]),
    ("frame-src", [noneTok]),
    ("img-src", ["'self'", "blob:", "data:"]),
    ("manifest-src", ["'self'"]),
    ("media-src", ["'self'"]),
    ("object-src", [noneTok]),
    ("script-src",
      ["'nonce-" ++ nonce ++ "'", "'strict-dynamic'"] ++ (if isDev then ["'unsafe-eval'"] else [])),
    ("script-src-elem", ["'nonce-" ++ nonce ++ "'", "'strict-dynamic'"]),
    ("style-src", ["'self'", "'unsafe-inline'"]),
    ("style-src-elem", ["'self'", "'unsafe-inline'"]),
    ("style-src-attr", ["'unsafe-inline'"]),
    ("worker-src", ["'self'", "blob:"]) ]

/-- One iteration of the copy loop (csp-builder.ts lines 130–138):
`'unsafe-eval'` is skipped when the target is `script-src-elem`; any other
source not yet present is pushed onto the granular directive. -/
def copyStep (granular : String) (acc : Table) (source : String) : Table :=
  if granular = "script-src-elem" ∧ source = "'unsafe-eval'" then acc
  else if source ∈ tokensT acc granular then acc
  else setD acc granular (tokensT acc granular ++ [source])

/-- csp-builder.ts lines 128–140 for one `[base, granular]` pair. -/
def copyPair (t : Table) (base granular : String) : Table :=
  match getD t base, getD t granular with
  | some bs, some _ => bs.foldl (copyStep granular) t
  | _, _ => t

/-- The `directivesToCopy` loop: style pair first, then script pair. -/
def propagate (t : Table) : Table :=
  copyPair (copyPair t "style-src" "style-src-elem") "script-src" "script-src-elem"

/-- The directive table of `buildCspHeader` after the rule-merge loop and
before granular propagation; `none` when a boolean rule value made the
merge loop throw. -/
def buildCspMerged (rules : List CspRule) (nonce : String) (isDev : Bool) : Option Table :=
  mergeAllRules (baseTable nonce isDev) rules

/-- The final directive table of `buildCspHeader`. -/
def buildCspTable (rules : List CspRule) (nonce : String) (isDev : Bool) : Option Table :=
  (buildCspMerged rules nonce isDev).map propagate

/-- csp-builder.ts lines 143–145: one `"key value1 value2 ..."` segment per
directive (note the trailing space a directive with no values gets). -/
def cspSegments (t : Table) : List String :=
  t.map fun kv => kv.1 ++ " " ++ String.intercalate " " kv.2

/-- `buildCspHeader(rules, nonce, isDev)` (csp-builder.ts). -/
def buildCspHeader (rules : List CspRule) (nonce : String) (isDev : Bool) : Option String :=
  (buildCspTable rules nonce isDev).map fun t => String.intercalate "; " (cspSegments t)

/-! ### merger.ts -/

/-- `DIRECTIVES_WITHOUT_SELF` (merger.ts lines 12–20). -/
def DIRECTIVES_WITHOUT_SELF : List String :=
  [ "report-uri", "report-to", "sandbox", "upgrade-insecure-requests",
    "block-all-mixed-content", "require-trusted-types-for", "trusted-types" ]

/-- merger.ts lines 72–84: normalize one rule value in `mergeCspRules`.
`true` becomes the single empty token, `false` contributes nothing
(`continue`), array elements are trimmed then empties dropped, the empty
string is the boolean-enable signal, and other strings split on
whitespace. -/
def normMerge : RuleValue → List String
  | .boolean b => if b then [""] else []
  | .list vs => (vs.map jsTrim).filter (fun v => v != "")
  | .str s => if s = "" then [""] else jsWords s

/-- `Set.prototype.add` on an insertion-ordered duplicate-free list. -/
def addTok (vs : List String) (v : String) : List String :=
  if v ∈ vs then vs else vs ++ [v]

/-- One entry `(key, value)` of a rule inside `mergeCspRules`
(merger.ts lines 61–93); note the set for `key` is created even when a
`false` boolean value then contributes no tokens. -/
def mergeCspField (m : Table) (key : String) (v : RuleValue) : Table :=
  if skipKey key then m
  else
    let m1 := if hasKey m key then m else setD m key []
    setD m1 key ((normMerge v).foldl addTok (tokensT m1 key))

/-- `mergeCspRules(rules)` (merger.ts lines 57–97); the warning-only
`validateCspValue` calls never alter the result and are not modeled. -/
def mergeCspRules (rules : List CspRule) : Table :=
  rules.foldl (fun m r => r.foldl (fun m kv => mergeCspField m kv.1 kv.2) m) []

/-- `new Set(values)`: deduplicate, keeping first occurrences. -/
def dedupTok (vs : List String) : List String := vs.foldl addTok []

/-- The key-initialization step of the user-directives loop in
`mergeDirectivesWithDefaults` (merger.ts lines 126–133). -/
def mergeDefaultsInit (acc : Table) (key : String) : Table :=
  if hasKey acc key then acc
  else if key ∈ DIRECTIVES_WITHOUT_SELF then setD acc key []
  else setD acc key ["'self'"]

/-- One entry of the user-directives loop in `mergeDirectivesWithDefaults`
(merger.ts lines 120–137). -/
def mergeDefaultsStep (acc : Table) (key : String) (vs : List String) : Table :=
  if vs = [] then acc
  else
    setD (mergeDefaultsInit acc key) key
      (vs.foldl addTok (tokensT (mergeDefaultsInit acc key) key))

/-- `mergeDirectivesWithDefaults(defaultDirectives, userRules, isDev)`
(merger.ts lines 106–140). -/
def mergeDirectivesWithDefaults (defaultDirectives : Table) (userRules : List CspRule) : Table :=
  let init := defaultDirectives.map fun kv => (kv.1, dedupTok kv.2)
  (mergeCspRules userRules).foldl (fun acc kv => mergeDefaultsStep acc kv.1 kv.2) init

/-! ### defaults.ts -/

/-- JS truthiness of the optional `nonce` parameter: present and non-empty. -/
def truthyNonce : Option String → Option String
  | some n => if n = "" then none else some n
  | none => none

/-- `getDefaultCspDirectives(isDev, nonce)` (defaults.ts lines 61–95);
the warning-only `validateNonce` call never alters the result. -/
def getDefaultCspDirectives (isDev : Bool) (nonce : Option String) : Table :=
  [ ("default-src", ["'self'"]),
    ("base-uri", ["'self'"]),
    ("child-src", [noneTok]),
    ("connect-src",
      if isDev then ["'self'", "ws://localhost:*", "wss://localhost:*"] else ["'self'"]),
    ("font-src", ["'self'"]),
    ("form-action", ["'self'"]),
    ("frame-ancestors", [noneTok]),
    ("frame-src", [noneTok]),
    ("img-src", ["'self'", "blob:", "data:"]),
    ("manifest-src", ["'self'"]),
    ("media-src", ["'self'"]),
    ("object-src", [noneTok]),
    ("script-src",
      match truthyNonce nonce with
      | some n =>
        ["'nonce-" ++ n ++ "'", "'strict-dynamic'"] ++ (if isDev then ["'unsafe-eval'"] else [])
      | none =>
        ["'self'", "'unsafe-inline'"] ++ (if isDev then ["'unsafe-eval'"] else [])),
    ("style-src",
      "'self'" :: (match truthyNonce nonce with
        | some n => ["'nonce-" ++ n ++ "'"]
        | none => ["'unsafe-inline'"])),
    ("worker-src", ["'self'", "blob:"]) ]

/-! ### generator.ts -/

/-- `SecurityHeadersConfig` (types.ts): every field optional. -/
structure SecurityHeadersConfig where
  xFrameOptions : Option String := none
  xContentTypeOptions : Option String := none
  referrerPolicy : Option String := none
  xXssProtection : Option String := none
  strictTransportSecurity : Option String := none
  permissionsPolicy : Option String := none
  xPoweredBy : Option String := none
deriving DecidableEq

/-- `SecurityOptions` (types.ts).  The `isDev` default of
`process.env.NODE_ENV !== "production"` is an environment read at the
boundary and is embedded as an explicit field. -/
structure SecurityOptions where
  isDev : Bool := false
  nonce : Option String := none
  headerConfig : Option SecurityHeadersConfig := none
deriving DecidableEq

/-- The `Permissions-Policy` value of `defaultSecurityHeadersConfig`. -/
def defaultPermissionsPolicy : String :=
  "accelerometer=(), camera=(), geolocation=(), gyroscope=(), magnetometer=(), microphone=(), payment=(), usb=(), interest-cohort=(), browsing-topics=()"

/-- Merging `defaultSecurityHeadersConfig` with the caller overrides after
filtering out `undefined` values (generator.ts lines 55–60): a field of the
final config is the override when present, the default otherwise. -/
def finalConfigField (hc : Option SecurityHeadersConfig)
    (field : SecurityHeadersConfig → Option String) (dflt : String) : String :=
  (field (hc.getD {})).getD dflt

/-- generator.ts lines 27–38: serialize one merged directive entry. -/
def serializeEntry (key : String) (vs : List String) : String :=
  if vs = [] ∨ vs = [""] then key
  else
    let filtered := vs.filter (fun v => v != "")
    if filtered ≠ [] then key ++ " " ++ String.intercalate " " filtered else key

/-- The `Content-Security-Policy` value computed by
`generateSecurityHeaders` (generator.ts lines 21–38). -/
def generatedCspSegments (rules : List CspRule) (opts : SecurityOptions) : List String :=
  (mergeDirectivesWithDefaults (getDefaultCspDirectives opts.isDev opts.nonce) rules).map
    fun kv => serializeEntry kv.1 kv.2

/-- `generateSecurityHeaders(rules, options)` (generator.ts lines 17–83) as
the insertion-ordered header-name / value list it builds; the size warnings
(lines 41–52) never alter the result. -/
def generateSecurityHeaders (rules : List CspRule) (opts : SecurityOptions) :
    List (String × String) :=
  let cspValue := String.intercalate "; " (generatedCspSegments rules opts)
  let hc := opts.headerConfig
  [ ("Content-Security-Policy", cspValue),
    ("X-Frame-Options", finalConfigField hc (·.xFrameOptions) "DENY"),
    ("X-Content-Type-Options", finalConfigField hc (·.xContentTypeOptions) "nosniff"),
    ("Referrer-Policy", finalConfigField hc (·.referrerPolicy) "strict-origin-when-cross-origin"),
    ("X-XSS-Protection", finalConfigField hc (·.xXssProtection) "1; mode=block"),
    ("Strict-Transport-Security",
      finalConfigField hc (·.strictTransportSecurity)
        "max-age=31536000; includeSubDomains; preload"),
    ("Permissions-Policy", finalConfigField hc (·.permissionsPolicy) defaultPermissionsPolicy) ]
  ++ (match (hc.getD {}).xPoweredBy with
      | some v => [("X-Powered-By", v)]
      | none => [])
  ++ (match truthyNonce opts.nonce with
      | some n => [("x-nonce", n)]
      | none => [])

/-! ### Specification vocabulary used by the theorems -/

/-- The keys of the baseline table of `buildCspHeader`, in order. -/
def baselineDirectiveNames : List String :=
  [ "default-src", "base-uri", "child-src", "connect-src", "font-src", "form-action",
    "frame-ancestors", "frame-src", "img-src", "manifest-src", "media-src", "object-src",
    "script-src", "script-src-elem", "style-src", "style-src-elem", "style-src-attr",
    "worker-src" ]

/-- The CSP directive names `CspRule` (types.ts) declares. -/
def recognizedDirectiveKeys : List String :=
  [ "base-uri", "child-src", "connect-src", "default-src", "font-src", "form-action",
    "frame-ancestors", "frame-src", "img-src", "manifest-src", "media-src", "object-src",
    "script-src", "script-src-attr", "script-src-elem", "style-src", "style-src-attr",
    "style-src-elem", "worker-src", "sandbox", "navigate-to", "report-to", "report-uri",
    "require-trusted-types-for", "trusted-types", "upgrade-insecure-requests",
    "block-all-mixed-content" ]

/-- The tokens a rule field value would add in `buildCspHeader` once
normalized and `'none'`-filtered (meaningful for non-boolean values). -/
def fieldAdded (v : RuleValue) : List String :=
  resolveCase1 ((normBuild v).getD [])

/-- The rule has some field for `k` whose surviving token list is non-empty
(the condition under which `buildCspHeader` strips an inherited `'none'`). -/
def ruleTouches (r : CspRule) (k : String) : Prop :=
  ¬skipKey k ∧ ∃ v, (k, v) ∈ r ∧ fieldAdded v ≠ []

/-- The token `x` is added to directive `k` by some field of the rule. -/
def ruleAdds (r : CspRule) (k : String) (x : String) : Prop :=
  ¬skipKey k ∧ ∃ v, (k, v) ∈ r ∧ x ∈ fieldAdded v ∧ x ≠ ""

/-- The rule mentions directive `k` at all (which alone creates the key). -/
def ruleMentions (r : CspRule) (k : String) : Prop :=
  ¬skipKey k ∧ ∃ v, (k, v) ∈ r

/-- No non-metadata field of the rule is boolean-valued, i.e. the rule
passes the merge loop of `buildCspHeader` without throwing. -/
def wellFormedRule (r : CspRule) : Prop :=
  ∀ kv ∈ r, ¬skipKey kv.1 → isBoolV kv.2 = false

/-- No non-metadata field of the rule normalizes to exactly `['none']`
(the sanctioned-reset shape). -/
def noneFreeRule (r : CspRule) : Prop :=
  ∀ kv ∈ r, ¬skipKey kv.1 → normBuild kv.2 ≠ some [noneTok]

/-- Some rule of the list touches directive `k` with surviving tokens. -/
def rulesTouch (rules : List CspRule) (k : String) : Prop :=
  ∃ r ∈ rules, ruleTouches r k

/-- Some rule of the list adds token `x` to directive `k`. -/
def rulesAdd (rules : List CspRule) (k : String) (x : String) : Prop :=
  ∃ r ∈ rules, ruleAdds r k x

/-- Some rule of the list mentions directive `k`. -/
def rulesMention (rules : List CspRule) (k : String) : Prop :=
  ∃ r ∈ rules, ruleMentions r k

/-! ## Basic lemmas about the table operations -/

theorem getD_setD_self (t : Table) (k : String) (vs : List String) :
    getD (setD t k vs) k = some vs := by
  induction t with
  | nil => simp [setD, getD]
  | cons hd tl ih =>
    obtain ⟨k0, w⟩ := hd
    by_cases h : k0 = k
    · simp [setD, h, getD]
    · simp [setD, h, getD, ih]

theorem getD_setD_ne (t : Table) (k k' : String) (vs : List String) (h : k ≠ k') :
    getD (setD t k vs) k' = getD t k' := by
  induction t with
  | nil => simp [setD, getD, h]
  | cons hd tl ih =>
    obtain ⟨k0, w⟩ := hd
    by_cases h0 : k0 = k
    · subst h0
      simp [setD, getD, h]
    · simp [setD, h0, getD, ih]

theorem tokensT_setD_self (t : Table) (k : String) (vs : List String) :
    tokensT (setD t k vs) k = vs := by
  simp [tokensT, getD_setD_self]

theorem tokensT_setD_ne (t : Table) (k k' : String) (vs : List String) (h : k ≠ k') :
    tokensT (setD t k vs) k' = tokensT t k' := by
  simp [tokensT, getD_setD_ne t k k' vs h]

theorem hasKey_setD_self (t : Table) (k : String) (vs : List String) :
    hasKey (setD t k vs) k = true := by
  simp [hasKey, getD_setD_self]

theorem hasKey_setD_ne (t : Table) (k k' : String) (vs : List String) (h : k ≠ k') :
    hasKey (setD t k vs) k' = hasKey t k' := by
  simp [hasKey, getD_setD_ne t k k' vs h]

theorem getD_mem (t : Table) (k : String) (vs : List String) (h : getD t k = some vs) :
    (k, vs) ∈ t := by
  induction t with
  | nil => simp [getD] at h
  | cons hd tl ih =>
    obtain ⟨k0, w⟩ := hd
    by_cases h0 : k0 = k
    · subst h0
      simp [getD] at h
      simp [h]
    · simp [getD, h0] at h
      exact List.mem_cons_of_mem _ (ih h)

theorem tokensT_eq_of_hasKey (t : Table) (k : String) (h : hasKey t k = true) :
    getD t k = some (tokensT t k) := by
  unfold hasKey at h
  cases hg : getD t k with
  | none => rw [hg] at h; simp at h
  | some vs => simp [tokensT, hg]

theorem tokensT_of_not_hasKey (t : Table) (k : String) (h : hasKey t k = false) :
    tokensT t k = [] := by
  unfold hasKey at h
  cases hg : getD t k with
  | none => simp [tokensT, hg]
  | some vs => rw [hg] at h; simp at h

/-! ## Membership lemmas for the push/add helpers -/

theorem mem_pushUnique (cur : List String) (v x : String) :
    x ∈ pushUnique cur v ↔ x ∈ cur ∨ (x = v ∧ v ≠ "") := by
  unfold pushUnique
  split
  · next h =>
    simp only [List.mem_append, List.mem_singleton]
    constructor
    · rintro (hx | rfl)
      · exact Or.inl hx
      · exact Or.inr ⟨rfl, h.1⟩
    · rintro (hx | ⟨rfl, -⟩)
      · exact Or.inl hx
      · exact Or.inr rfl
  · next h =>
    rw [not_and_or] at h
    constructor
    · exact Or.inl
    · rintro (hx | ⟨rfl, hv⟩)
      · exact hx
      · rcases h with h | h
        · simp at h; exact absurd hv (by simp [h])
        · simpa using h

theorem mem_addAll (values : List String) (cur : List String) (x : String) :
    x ∈ addAll cur values ↔ x ∈ cur ∨ (x ∈ values ∧ x ≠ "") := by
  induction values generalizing cur with
  | nil => simp [addAll]
  | cons v vs ih =>
    show x ∈ addAll (pushUnique cur v) vs ↔ _
    rw [ih, mem_pushUnique]
    simp only [List.mem_cons]
    constructor
    · rintro ((hx | ⟨rfl, hv⟩) | ⟨hx, hne⟩)
      · exact Or.inl hx
      · exact Or.inr ⟨Or.inl rfl, hv⟩
      · exact Or.inr ⟨Or.inr hx, hne⟩
    · rintro (hx | ⟨(rfl | hx), hne⟩)
      · exact Or.inl (Or.inl hx)
      · exact Or.inl (Or.inr ⟨rfl, hne⟩)
      · exact Or.inr ⟨hx, hne⟩

theorem mem_addTok (vs : List String) (v x : String) :
    x ∈ addTok vs v ↔ x ∈ vs ∨ x = v := by
  unfold addTok
  split
  · next h =>
    constructor
    · exact Or.inl
    · rintro (hx | rfl) <;> assumption
  · simp

theorem mem_foldl_addTok (values : List String) (cur : List String) (x : String) :
    x ∈ values.foldl addTok cur ↔ x ∈ cur ∨ x ∈ values := by
  induction values generalizing cur with
  | nil => simp
  | cons v vs ih =>
    show x ∈ vs.foldl addTok (addTok cur v) ↔ _
    rw [ih, mem_addTok]
    simp only [List.mem_cons]
    tauto

theorem nodup_addTok (vs : List String) (v : String) (h : vs.Nodup) :
    (addTok vs v).Nodup := by
  unfold addTok
  split
  · exact h
  · next hv => simp [List.nodup_append, h, hv]

theorem nodup_foldl_addTok (values : List String) (cur : List String) (h : cur.Nodup) :
    (values.foldl addTok cur).Nodup := by
  induction values generalizing cur with
  | nil => exact h
  | cons v vs ih => exact ih _ (nodup_addTok _ _ h)

/-! ## Lemmas about `'none'` resolution and `mergeField` -/

theorem resolveCase1_eq_noneTok_iff (l : List String) :
    resolveCase1 l = [noneTok] ↔ l = [noneTok] := by
  unfold resolveCase1
  split
  · next h =>
    constructor
    · intro hf
      have : noneTok ∈ l.filter (fun v => v != noneTok) := by rw [hf]; simp
      simp at this
    · rintro rfl
      simp at h
  · exact Iff.rfl

theorem noneTok_not_mem_resolveCase1 (l : List String) (h : resolveCase1 l ≠ [noneTok]) :
    noneTok ∉ resolveCase1 l := by
  by_cases hc : l.length > 1 ∧ noneTok ∈ l
  · rw [resolveCase1, if_pos hc]
    simp
  · rw [resolveCase1, if_neg hc] at h ⊢
    rw [not_and_or] at hc
    intro hm
    rcases hc with hc | hc
    · cases l with
      | nil => simp at hm
      | cons a tl =>
        cases tl with
        | nil =>
          simp at hm
          exact h (by rw [hm])
        | cons b tl2 =>
          exact absurd (by simp only [List.length_cons]; omega) hc
    · exact hc hm

/-- `mergeField` leaves every other key untouched. -/
theorem mergeField_getD_ne (t : Table) (k : String) (v : RuleValue) (k' : String) (t' : Table)
    (hne : k' ≠ k) (h : mergeField t k v = some t') : getD t' k' = getD t k' := by
  unfold mergeField at h
  have hne' : k ≠ k' := fun hh => hne hh.symm
  split at h
  · cases h; rfl
  · cases hv : normBuild v with
    | none => rw [hv] at h; simp at h
    | some values0 =>
      rw [hv] at h
      simp only at h
      have ht1 : getD (if hasKey t k then t else setD t k []) k' = getD t k' := by
        split
        · rfl
        · exact getD_setD_ne t k k' [] hne'
      split at h <;>
        · cases h
          rw [getD_setD_ne _ k k' _ hne']
          exact ht1

/-- A successful `mergeField` at a non-metadata key makes the key present. -/
theorem mergeField_hasKey_self (t : Table) (k : String) (v : RuleValue) (t' : Table)
    (hk : ¬skipKey k) (h : mergeField t k v = some t') : hasKey t' k = true := by
  unfold mergeField at h
  rw [if_neg hk] at h
  cases hv : normBuild v with
  | none => rw [hv] at h; simp at h
  | some values0 =>
    rw [hv] at h
    simp only at h
    split at h <;> · cases h; exact hasKey_setD_self ..

/-- `mergeField` never deletes a key. -/
theorem mergeField_hasKey_mono (t : Table) (k : String) (v : RuleValue) (k' : String) (t' : Table)
    (h : mergeField t k v = some t') (hk : hasKey t k' = true) : hasKey t' k' = true := by
  by_cases hne : k' = k
  · subst hne
    by_cases hsk : skipKey k'
    · unfold mergeField at h
      rw [if_pos hsk] at h
      cases h; exact hk
    · exact mergeField_hasKey_self t k' v t' hsk h
  · unfold hasKey at *
    rw [mergeField_getD_ne t k v k' t' hne h]
    exact hk

/-- `mergeField` creates no key other than its own. -/
theorem mergeField_hasKey_rev (t : Table) (k : String) (v : RuleValue) (k' : String) (t' : Table)
    (h : mergeField t k v = some t') (hk : hasKey t' k' = true) :
    hasKey t k' = true ∨ (k' = k ∧ ¬skipKey k) := by
  by_cases hne : k' = k
  · subst hne
    by_cases hsk : skipKey k'
    · unfold mergeField at h
      rw [if_pos hsk] at h
      cases h; exact Or.inl hk
    · exact Or.inr ⟨rfl, hsk⟩
  · unfold hasKey at hk
    rw [mergeField_getD_ne t k v k' t' hne h] at hk
    exact Or.inl hk

theorem tokensT_ensure (t : Table) (k : String) :
    tokensT (if hasKey t k then t else setD t k []) k = tokensT t k := by
  split
  · rfl
  · next h =>
    rw [tokensT_setD_self]
    rw [tokensT_of_not_hasKey t k (by simpa using h)]

theorem mem_filter_ne_noneTok (cur : List String) (x : String) :
    x ∈ cur.filter (fun v => v != noneTok) ↔ x ∈ cur ∧ x ≠ noneTok := by
  simp [List.mem_filter]

/-- Token-membership specification of one merge-loop iteration of
`buildCspHeader`, outside the sanctioned `'none'`-reset case. -/
theorem mergeField_mem_tokens (t : Table) (k : String) (v : RuleValue) (t' : Table)
    (hk : ¬skipKey k) (hn : normBuild v ≠ some [noneTok])
    (h : mergeField t k v = some t') (x : String) :
    x ∈ tokensT t' k ↔
      (x ∈ tokensT t k ∧ ¬(x = noneTok ∧ fieldAdded v ≠ [])) ∨
        (x ∈ fieldAdded v ∧ x ≠ "") := by
  unfold mergeField at h
  rw [if_neg hk] at h
  cases hv : normBuild v with
  | none => rw [hv] at h; simp at h
  | some values0 =>
    rw [hv] at h
    simp only at h
    have hA : fieldAdded v = resolveCase1 values0 := by
      unfold fieldAdded; rw [hv]; rfl
    have hvne : values0 ≠ [noneTok] := by
      intro hh; exact hn (by rw [hv, hh])
    have hrne : resolveCase1 values0 ≠ [noneTok] := fun hh =>
      hvne ((resolveCase1_eq_noneTok_iff values0).mp hh)
    rw [if_neg hrne] at h
    cases h
    rw [tokensT_setD_self, hA, mem_addAll, tokensT_ensure t k]
    by_cases hcond : resolveCase1 values0 ≠ [] ∧ noneTok ∈ tokensT t k
    · rw [if_pos hcond, mem_filter_ne_noneTok]
      constructor
      · rintro (⟨hx, hxne⟩ | hx)
        · exact Or.inl ⟨hx, fun hh => hxne hh.1⟩
        · exact Or.inr hx
      · rintro (⟨hx, hguard⟩ | hx)
        · exact Or.inl ⟨hx, fun he => hguard ⟨he, hcond.1⟩⟩
        · exact Or.inr hx
    · rw [if_neg hcond]
      rw [not_and_or] at hcond
      constructor
      · rintro (hx | hx)
        · refine Or.inl ⟨hx, ?_⟩
          rintro ⟨rfl, hAne⟩
          rcases hcond with hc | hc
          · exact hc hAne
          · exact hc hx
        · exact Or.inr hx
      · rintro (⟨hx, -⟩ | hx)
        · exact Or.inl hx
        · exact Or.inr hx

theorem mergeField_isSome (t : Table) (k : String) (v : RuleValue) :
    (mergeField t k v).isSome = true ↔ (skipKey k ∨ isBoolV v = false) := by
  unfold mergeField
  split
  · next h => simp [h]
  · next h =>
    cases v with
    | str s => simp [normBuild, isBoolV]; split <;> simp
    | list vs => simp [normBuild, isBoolV]; split <;> simp
    | boolean b => simp [normBuild, isBoolV, h]

theorem noneTok_not_mem_fieldAdded (v : RuleValue) (hn : normBuild v ≠ some [noneTok]) :
    noneTok ∉ fieldAdded v := by
  cases v with
  | boolean b => simp [fieldAdded, normBuild, resolveCase1]
  | str s =>
    apply noneTok_not_mem_resolveCase1
    intro hh
    exact hn (by simpa [fieldAdded, normBuild] using (resolveCase1_eq_noneTok_iff _).mp hh)
  | list vs =>
    apply noneTok_not_mem_resolveCase1
    intro hh
    exact hn (by simpa [fieldAdded, normBuild] using (resolveCase1_eq_noneTok_iff _).mp hh)

/-! ## Cons lemmas for the rule predicates -/

theorem ruleTouches_cons (k0 : String) (v0 : RuleValue) (r : CspRule) (k : String) :
    ruleTouches ((k0, v0) :: r) k ↔
      (k = k0 ∧ ¬skipKey k ∧ fieldAdded v0 ≠ []) ∨ ruleTouches r k := by
  simp only [ruleTouches, List.mem_cons, Prod.mk.injEq]
  constructor
  · rintro ⟨hsk, v, (⟨rfl, rfl⟩ | hm), hA⟩
    · exact Or.inl ⟨rfl, hsk, hA⟩
    · exact Or.inr ⟨hsk, v, hm, hA⟩
  · rintro (⟨rfl, hsk, hA⟩ | ⟨hsk, v, hm, hA⟩)
    · exact ⟨hsk, v0, Or.inl ⟨rfl, rfl⟩, hA⟩
    · exact ⟨hsk, v, Or.inr hm, hA⟩

theorem ruleAdds_cons (k0 : String) (v0 : RuleValue) (r : CspRule) (k x : String) :
    ruleAdds ((k0, v0) :: r) k x ↔
      (k = k0 ∧ ¬skipKey k ∧ x ∈ fieldAdded v0 ∧ x ≠ "") ∨ ruleAdds r k x := by
  simp only [ruleAdds, List.mem_cons, Prod.mk.injEq]
  constructor
  · rintro ⟨hsk, v, (⟨rfl, rfl⟩ | hm), hA⟩
    · exact Or.inl ⟨rfl, hsk, hA⟩
    · exact Or.inr ⟨hsk, v, hm, hA⟩
  · rintro (⟨rfl, hsk, hA⟩ | ⟨hsk, v, hm, hA⟩)
    · exact ⟨hsk, v0, Or.inl ⟨rfl, rfl⟩, hA⟩
    · exact ⟨hsk, v, Or.inr hm, hA⟩

theorem ruleMentions_cons (k0 : String) (v0 : RuleValue) (r : CspRule) (k : String) :
    ruleMentions ((k0, v0) :: r) k ↔ (k = k0 ∧ ¬skipKey k) ∨ ruleMentions r k := by
  simp only [ruleMentions, List.mem_cons, Prod.mk.injEq]
  constructor
  · rintro ⟨hsk, v, (⟨rfl, rfl⟩ | hm)⟩
    · exact Or.inl ⟨rfl, hsk⟩
    · exact Or.inr ⟨hsk, v, hm⟩
  · rintro (⟨rfl, hsk⟩ | ⟨hsk, v, hm⟩)
    · exact ⟨hsk, v0, Or.inl ⟨rfl, rfl⟩⟩
    · exact ⟨hsk, v, Or.inr hm⟩

/-! ## Rule-level specifications of the `buildCspHeader` merge loop -/

theorem mergeRule_nil (t : Table) : mergeRule t [] = some t := rfl

theorem mergeRule_cons (t : Table) (kv : String × RuleValue) (r : CspRule) :
    mergeRule t (kv :: r) = (mergeField t kv.1 kv.2).bind fun t1 => mergeRule t1 r := rfl

theorem mergeRule_isSome (t : Table) (r : CspRule) :
    (mergeRule t r).isSome = true ↔ wellFormedRule r := by
  induction r generalizing t with
  | nil => simp [mergeRule_nil, wellFormedRule]
  | cons kv r ih =>
    rw [mergeRule_cons]
    cases hm : mergeField t kv.1 kv.2 with
    | none =>
      have h1 : ¬(skipKey kv.1 ∨ isBoolV kv.2 = false) := by
        intro hh
        have h2 := (mergeField_isSome t kv.1 kv.2).mpr hh
        rw [hm] at h2
        simp at h2
      simp only [Option.none_bind]
      constructor
      · intro hh; simp at hh
      · intro hwf
        exfalso
        apply h1
        by_cases hsk : skipKey kv.1
        · exact Or.inl hsk
        · exact Or.inr (hwf kv (List.mem_cons_self ..) hsk)
    | some t1 =>
      simp only [Option.some_bind]
      rw [ih]
      have hhead : skipKey kv.1 ∨ isBoolV kv.2 = false :=
        (mergeField_isSome t kv.1 kv.2).mp (by rw [hm]; rfl)
      unfold wellFormedRule
      constructor
      · intro hwf e he hsk
        rcases List.mem_cons.mp he with rfl | hmem
        · rcases hhead with hh | hh
          · exact absurd hh hsk
          · exact hh
        · exact hwf e hmem hsk
      · intro hwf e he hsk
        exact hwf e (List.mem_cons_of_mem _ he) hsk

theorem mergeField_hasKey_iff (t : Table) (k : String) (v : RuleValue) (k' : String) (t' : Table)
    (h : mergeField t k v = some t') :
    hasKey t' k' = true ↔ hasKey t k' = true ∨ (k' = k ∧ ¬skipKey k) := by
  constructor
  · exact fun hk => mergeField_hasKey_rev t k v k' t' h hk
  · rintro (hk | ⟨he, hsk⟩)
    · exact mergeField_hasKey_mono t k v k' t' h hk
    · rw [he]
      exact mergeField_hasKey_self t k v t' hsk h

theorem mergeRule_hasKey : ∀ (r : CspRule) (t t' : Table), mergeRule t r = some t' →
    ∀ k, hasKey t' k = true ↔ hasKey t k = true ∨ ruleMentions r k := by
  intro r
  induction r with
  | nil =>
    intro t t' h k
    rw [mergeRule_nil] at h; cases h
    simp [ruleMentions]
  | cons kv rest ih =>
    intro t t' h k
    obtain ⟨k0, v0⟩ := kv
    rw [mergeRule_cons] at h
    cases hm : mergeField t k0 v0 with
    | none => rw [hm] at h; simp at h
    | some t1 =>
      rw [hm] at h
      simp only [Option.some_bind] at h
      rw [ih t1 t' h k, mergeField_hasKey_iff t k0 v0 k t1 hm, ruleMentions_cons]
      by_cases hk : k = k0
      · subst hk
        simp only [eq_self_iff_true, true_and]
        tauto
      · simp only [hk, false_and, false_or]
        tauto

set_option maxHeartbeats 1600000 in
theorem mergeRule_mem_tokens : ∀ (r : CspRule) (t t' : Table), noneFreeRule r →
    mergeRule t r = some t' → ∀ k x,
    x ∈ tokensT t' k ↔
      (x ∈ tokensT t k ∧ ¬(x = noneTok ∧ ruleTouches r k)) ∨ ruleAdds r k x := by
  intro r
  induction r with
  | nil =>
    intro t t' hnf h k x
    rw [mergeRule_nil] at h; cases h
    simp [ruleTouches, ruleAdds]
  | cons kv rest ih =>
    intro t t' hnf h k x
    obtain ⟨k0, v0⟩ := kv
    rw [mergeRule_cons] at h
    cases hm : mergeField t k0 v0 with
    | none => rw [hm] at h; simp at h
    | some t1 =>
      rw [hm] at h
      simp only [Option.some_bind] at h
      have hnfr : noneFreeRule rest := fun e he => hnf e (List.mem_cons_of_mem _ he)
      by_cases hsk0 : skipKey k0
      · have ht1 : t1 = t := by
          unfold mergeField at hm
          rw [if_pos hsk0] at hm
          cases hm; rfl
        rw [ht1] at h
        rw [ih t t' hnfr h k x, ruleTouches_cons, ruleAdds_cons]
        have hno1 : ¬(k = k0 ∧ ¬skipKey k ∧ fieldAdded v0 ≠ []) := by
          rintro ⟨rfl, hns, -⟩; exact hns hsk0
        have hno2 : ¬(k = k0 ∧ ¬skipKey k ∧ x ∈ fieldAdded v0 ∧ x ≠ "") := by
          rintro ⟨rfl, hns, -⟩; exact hns hsk0
        simp only [hno1, hno2, false_or]
      · have hn0 : normBuild v0 ≠ some [noneTok] := hnf (k0, v0) (List.mem_cons_self ..) hsk0
        by_cases hk : k = k0
        · subst hk
          have hfs := mergeField_mem_tokens t k v0 t1 hsk0 hn0 hm x
          rw [ih t1 t' hnfr h k x, hfs, ruleTouches_cons, ruleAdds_cons]
          simp only [eq_self_iff_true, true_and, hsk0, not_false_iff]
          have hxA : x ∈ fieldAdded v0 → ¬(x = noneTok) := fun hx he =>
            noneTok_not_mem_fieldAdded v0 hn0 (he ▸ hx)
          tauto
        · have hteq : tokensT t1 k = tokensT t k := by
            unfold tokensT
            rw [mergeField_getD_ne t k0 v0 k t1 hk hm]
          rw [ih t1 t' hnfr h k x, hteq, ruleTouches_cons, ruleAdds_cons]
          have hno1 : ¬(k = k0 ∧ ¬skipKey k ∧ fieldAdded v0 ≠ []) := by
            rintro ⟨hh, -⟩; exact hk hh
          have hno2 : ¬(k = k0 ∧ ¬skipKey k ∧ x ∈ fieldAdded v0 ∧ x ≠ "") := by
            rintro ⟨hh, -⟩; exact hk hh
          tauto

/-! ## Rule-list-level specifications -/

theorem rulesTouch_cons (r0 : CspRule) (rest : List CspRule) (k : String) :
    rulesTouch (r0 :: rest) k ↔ ruleTouches r0 k ∨ rulesTouch rest k := by
  unfold rulesTouch
  constructor
  · rintro ⟨r, hr, hp⟩
    rcases List.mem_cons.mp hr with rfl | hm
    · exact Or.inl hp
    · exact Or.inr ⟨r, hm, hp⟩
  · rintro (hp | ⟨r, hm, hp⟩)
    · exact ⟨r0, List.mem_cons_self .., hp⟩
    · exact ⟨r, List.mem_cons_of_mem _ hm, hp⟩

theorem rulesAdd_cons (r0 : CspRule) (rest : List CspRule) (k x : String) :
    rulesAdd (r0 :: rest) k x ↔ ruleAdds r0 k x ∨ rulesAdd rest k x := by
  unfold rulesAdd
  constructor
  · rintro ⟨r, hr, hp⟩
    rcases List.mem_cons.mp hr with rfl | hm
    · exact Or.inl hp
    · exact Or.inr ⟨r, hm, hp⟩
  · rintro (hp | ⟨r, hm, hp⟩)
    · exact ⟨r0, List.mem_cons_self .., hp⟩
    · exact ⟨r, List.mem_cons_of_mem _ hm, hp⟩

theorem rulesMention_cons (r0 : CspRule) (rest : List CspRule) (k : String) :
    rulesMention (r0 :: rest) k ↔ ruleMentions r0 k ∨ rulesMention rest k := by
  unfold rulesMention
  constructor
  · rintro ⟨r, hr, hp⟩
    rcases List.mem_cons.mp hr with rfl | hm
    · exact Or.inl hp
    · exact Or.inr ⟨r, hm, hp⟩
  · rintro (hp | ⟨r, hm, hp⟩)
    · exact ⟨r0, List.mem_cons_self .., hp⟩
    · exact ⟨r, List.mem_cons_of_mem _ hm, hp⟩

theorem ruleAdds_ne_noneTok (r : CspRule) (hnf : noneFreeRule r) (k x : String)
    (h : ruleAdds r k x) : x ≠ noneTok := by
  obtain ⟨hsk, v, hv, hx, -⟩ := h
  rintro rfl
  exact noneTok_not_mem_fieldAdded v (hnf (k, v) hv hsk) hx

theorem mergeAllRules_nil (t : Table) : mergeAllRules t [] = some t := rfl

theorem mergeAllRules_cons (t : Table) (r : CspRule) (rules : List CspRule) :
    mergeAllRules t (r :: rules) = (mergeRule t r).bind fun t1 => mergeAllRules t1 rules := rfl

theorem mergeAllRules_isSome (t : Table) (rules : List CspRule) :
    (mergeAllRules t rules).isSome = true ↔ ∀ r ∈ rules, wellFormedRule r := by
  induction rules generalizing t with
  | nil => simp [mergeAllRules_nil]
  | cons r rest ih =>
    rw [mergeAllRules_cons]
    cases hm : mergeRule t r with
    | none =>
      have h1 : ¬wellFormedRule r := by
        intro hwf
        have h2 := (mergeRule_isSome t r).mpr hwf
        rw [hm] at h2
        simp at h2
      simp only [Option.none_bind]
      constructor
      · intro hh; simp at hh
      · intro hwf
        exact absurd (hwf r (List.mem_cons_self ..)) h1
    | some t1 =>
      simp only [Option.some_bind]
      rw [ih]
      have hhead : wellFormedRule r := (mergeRule_isSome t r).mp (by rw [hm]; rfl)
      constructor
      · intro hwf e he
        rcases List.mem_cons.mp he with rfl | hmem
        · exact hhead
        · exact hwf e hmem
      · intro hwf e he
        exact hwf e (List.mem_cons_of_mem _ he)

theorem mergeAllRules_hasKey : ∀ (rules : List CspRule) (t t' : Table),
    mergeAllRules t rules = some t' →
    ∀ k, hasKey t' k = true ↔ hasKey t k = true ∨ rulesMention rules k := by
  intro rules
  induction rules with
  | nil =>
    intro t t' h k
    rw [mergeAllRules_nil] at h; cases h
    simp [rulesMention]
  | cons r rest ih =>
    intro t t' h k
    rw [mergeAllRules_cons] at h
    cases hm : mergeRule t r with
    | none => rw [hm] at h; simp at h
    | some t1 =>
      rw [hm] at h
      simp only [Option.some_bind] at h
      rw [ih t1 t' h k, mergeRule_hasKey r t t1 hm k, rulesMention_cons]
      tauto

theorem mergeAllRules_mem_tokens : ∀ (rules : List CspRule) (t t' : Table),
    (∀ r ∈ rules, noneFreeRule r) → mergeAllRules t rules = some t' → ∀ k x,
    x ∈ tokensT t' k ↔
      (x ∈ tokensT t k ∧ ¬(x = noneTok ∧ rulesTouch rules k)) ∨ rulesAdd rules k x := by
  intro rules
  induction rules with
  | nil =>
    intro t t' hnf h k x
    rw [mergeAllRules_nil] at h; cases h
    simp [rulesTouch, rulesAdd]
  | cons r rest ih =>
    intro t t' hnf h k x
    rw [mergeAllRules_cons] at h
    cases hm : mergeRule t r with
    | none => rw [hm] at h; simp at h
    | some t1 =>
      rw [hm] at h
      simp only [Option.some_bind] at h
      have hnfr : ∀ e ∈ rest, noneFreeRule e := fun e he => hnf e (List.mem_cons_of_mem _ he)
      have hnf0 : noneFreeRule r := hnf r (List.mem_cons_self ..)
      rw [ih t1 t' hnfr h k x, mergeRule_mem_tokens r t t1 hnf0 hm k x,
        rulesTouch_cons, rulesAdd_cons]
      have hxA : ruleAdds r k x → ¬(x = noneTok) := fun ha he =>
        ruleAdds_ne_noneTok r hnf0 k x ha he
      tauto

/-- Provenance of tokens through one merge-loop iteration of
`buildCspHeader`: every token of the result was already present or was
supplied by the field (this also covers the `'none'`-reset branch, whose
single output token is the field's own). -/
theorem mergeField_mem_subset (t : Table) (k : String) (v : RuleValue) (t' : Table)
    (h : mergeField t k v = some t') (x : String) (hx : x ∈ tokensT t' k) :
    x ∈ tokensT t k ∨ (¬skipKey k ∧ x ∈ fieldAdded v ∧ x ≠ "") := by
  by_cases hsk : skipKey k
  · unfold mergeField at h
    rw [if_pos hsk] at h
    cases h
    exact Or.inl hx
  · unfold mergeField at h
    rw [if_neg hsk] at h
    cases hv : normBuild v with
    | none => rw [hv] at h; simp at h
    | some values0 =>
      rw [hv] at h
      simp only at h
      have hA : fieldAdded v = resolveCase1 values0 := by
        unfold fieldAdded
        rw [hv]
        rfl
      split at h
      · next hres =>
        cases h
        rw [tokensT_setD_self] at hx
        simp only [List.mem_singleton] at hx
        subst hx
        refine Or.inr ⟨hsk, ?_, by decide⟩
        rw [hA, hres]
        simp
      · cases h
        rw [tokensT_setD_self, mem_addAll, tokensT_ensure] at hx
        rcases hx with hx | hx
        · by_cases hcond : resolveCase1 values0 ≠ [] ∧ noneTok ∈ tokensT t k
          · rw [if_pos hcond, mem_filter_ne_noneTok] at hx
            exact Or.inl hx.1
          · rw [if_neg hcond] at hx
            exact Or.inl hx
        · exact Or.inr ⟨hsk, by rw [hA]; exact hx.1, hx.2⟩

theorem mergeRule_mem_subset : ∀ (r : CspRule) (t t' : Table), mergeRule t r = some t' →
    ∀ k x, x ∈ tokensT t' k → x ∈ tokensT t k ∨ ruleAdds r k x := by
  intro r
  induction r with
  | nil =>
    intro t t' h k x hx
    rw [mergeRule_nil] at h
    cases h
    exact Or.inl hx
  | cons kv rest ih =>
    intro t t' h k x hx
    obtain ⟨k0, v0⟩ := kv
    rw [mergeRule_cons] at h
    cases hm : mergeField t k0 v0 with
    | none => rw [hm] at h; simp at h
    | some t1 =>
      rw [hm] at h
      simp only [Option.some_bind] at h
      rcases ih t1 t' h k x hx with hx1 | hadd
      · by_cases hk : k = k0
        · subst hk
          rcases mergeField_mem_subset t k v0 t1 hm x hx1 with hx2 | ⟨hns, hfa, hne⟩
          · exact Or.inl hx2
          · exact Or.inr ((ruleAdds_cons k v0 rest k x).mpr (Or.inl ⟨rfl, hns, hfa, hne⟩))
        · have hteq : tokensT t1 k = tokensT t k := by
            unfold tokensT
            rw [mergeField_getD_ne t k0 v0 k t1 hk hm]
          rw [hteq] at hx1
          exact Or.inl hx1
      · exact Or.inr ((ruleAdds_cons k0 v0 rest k x).mpr (Or.inr hadd))

theorem mergeAllRules_mem_subset : ∀ (rules : List CspRule) (t t' : Table),
    mergeAllRules t rules = some t' →
    ∀ k x, x ∈ tokensT t' k → x ∈ tokensT t k ∨ rulesAdd rules k x := by
  intro rules
  induction rules with
  | nil =>
    intro t t' h k x hx
    rw [mergeAllRules_nil] at h
    cases h
    exact Or.inl hx
  | cons r rest ih =>
    intro t t' h k x hx
    rw [mergeAllRules_cons] at h
    cases hm : mergeRule t r with
    | none => rw [hm] at h; simp at h
    | some t1 =>
      rw [hm] at h
      simp only [Option.some_bind] at h
      rcases ih t1 t' h k x hx with hx1 | hadd
      · rcases mergeRule_mem_subset r t t1 hm k x hx1 with hx2 | hadd0
        · exact Or.inl hx2
        · exact Or.inr ((rulesAdd_cons r rest k x).mpr (Or.inl hadd0))
      · exact Or.inr ((rulesAdd_cons r rest k x).mpr (Or.inr hadd))

/-! ## Lemmas about the granular-directive propagation step -/

theorem copyStep_getD_ne (g : String) (acc : Table) (s : String) (k : String) (hk : k ≠ g) :
    getD (copyStep g acc s) k = getD acc k := by
  unfold copyStep
  split
  · rfl
  · split
    · rfl
    · exact getD_setD_ne acc g k _ (fun hh => hk hh.symm)

theorem copyStep_hasKey (g : String) (acc : Table) (s : String) (hg : hasKey acc g = true)
    (k : String) : hasKey (copyStep g acc s) k = hasKey acc k := by
  unfold copyStep
  split
  · rfl
  · split
    · rfl
    · by_cases hk : k = g
      · subst hk; rw [hasKey_setD_self, hg]
      · exact hasKey_setD_ne acc g k _ (fun hh => hk hh.symm)

theorem copyStep_mem_g (g : String) (acc : Table) (s : String) (x : String) :
    x ∈ tokensT (copyStep g acc s) g ↔
      x ∈ tokensT acc g ∨ (x = s ∧ ¬(g = "script-src-elem" ∧ s = "'unsafe-eval'")) := by
  unfold copyStep
  split
  · next hexcl =>
    constructor
    · exact Or.inl
    · rintro (hx | ⟨rfl, hne⟩)
      · exact hx
      · exact absurd hexcl hne
  · next hexcl =>
    split
    · next hs =>
      constructor
      · exact Or.inl
      · rintro (hx | ⟨rfl, -⟩)
        · exact hx
        · exact hs
    · next hs =>
      rw [tokensT_setD_self]
      simp only [List.mem_append, List.mem_singleton]
      constructor
      · rintro (hx | rfl)
        · exact Or.inl hx
        · exact Or.inr ⟨rfl, hexcl⟩
      · rintro (hx | ⟨rfl, -⟩)
        · exact Or.inl hx
        · exact Or.inr rfl

theorem foldl_copyStep_hasKey (bs : List String) (g : String) :
    ∀ (acc : Table), hasKey acc g = true → ∀ k,
      hasKey (bs.foldl (copyStep g) acc) k = hasKey acc k := by
  induction bs with
  | nil => intro acc _ k; rfl
  | cons s rest ih =>
    intro acc hg k
    show hasKey (rest.foldl (copyStep g) (copyStep g acc s)) k = _
    rw [ih (copyStep g acc s) (by rw [copyStep_hasKey g acc s hg g]; exact hg) k,
      copyStep_hasKey g acc s hg k]

theorem foldl_copyStep_getD_ne (bs : List String) (g : String) (k : String) (hk : k ≠ g) :
    ∀ acc : Table, getD (bs.foldl (copyStep g) acc) k = getD acc k := by
  induction bs with
  | nil => intro acc; rfl
  | cons s rest ih =>
    intro acc
    show getD (rest.foldl (copyStep g) (copyStep g acc s)) k = _
    rw [ih (copyStep g acc s), copyStep_getD_ne g acc s k hk]

theorem foldl_copyStep_mem (bs : List String) (g : String) :
    ∀ (acc : Table) (x : String),
      x ∈ tokensT (bs.foldl (copyStep g) acc) g ↔
        x ∈ tokensT acc g ∨
          (x ∈ bs ∧ ¬(g = "script-src-elem" ∧ x = "'unsafe-eval'")) := by
  induction bs with
  | nil => intro acc x; simp
  | cons s rest ih =>
    intro acc x
    show x ∈ tokensT (rest.foldl (copyStep g) (copyStep g acc s)) g ↔ _
    rw [ih (copyStep g acc s) x, copyStep_mem_g g acc s x]
    simp only [List.mem_cons]
    constructor
    · rintro ((hx | ⟨rfl, hne⟩) | ⟨hx, hne⟩)
      · exact Or.inl hx
      · exact Or.inr ⟨Or.inl rfl, hne⟩
      · exact Or.inr ⟨Or.inr hx, hne⟩
    · rintro (hx | ⟨(rfl | hx), hne⟩)
      · exact Or.inl (Or.inl hx)
      · exact Or.inl (Or.inr ⟨rfl, hne⟩)
      · exact Or.inr ⟨hx, hne⟩

theorem copyPair_getD_ne (t : Table) (b g : String) (k : String) (hk : k ≠ g) :
    getD (copyPair t b g) k = getD t k := by
  unfold copyPair
  cases hb : getD t b with
  | none => rfl
  | some bs =>
    cases hg : getD t g with
    | none => rfl
    | some gs => exact foldl_copyStep_getD_ne bs g k hk t

theorem copyPair_hasKey (t : Table) (b g : String) (k : String) :
    hasKey (copyPair t b g) k = hasKey t k := by
  unfold copyPair
  cases hb : getD t b with
  | none => rfl
  | some bs =>
    cases hg : getD t g with
    | none => rfl
    | some gs => exact foldl_copyStep_hasKey bs g t (by simp [hasKey, hg]) k

theorem copyPair_tokensT_ne (t : Table) (b g : String) (k : String) (hk : k ≠ g) :
    tokensT (copyPair t b g) k = tokensT t k := by
  unfold tokensT
  rw [copyPair_getD_ne t b g k hk]

theorem copyPair_mem_g (t : Table) (b g : String)
    (hb : hasKey t b = true) (hg : hasKey t g = true) (x : String) :
    x ∈ tokensT (copyPair t b g) g ↔
      x ∈ tokensT t g ∨
        (x ∈ tokensT t b ∧ ¬(g = "script-src-elem" ∧ x = "'unsafe-eval'")) := by
  unfold copyPair
  cases hbv : getD t b with
  | none => simp [hasKey, hbv] at hb
  | some bs =>
    cases hgv : getD t g with
    | none => simp [hasKey, hgv] at hg
    | some gs =>
      have hbs : tokensT t b = bs := by simp [tokensT, hbv]
      rw [foldl_copyStep_mem bs g t x, hbs]

theorem baseTable_hasKey (nonce : String) (isDev : Bool) (name : String)
    (h : name ∈ baselineDirectiveNames) : hasKey (baseTable nonce isDev) name = true := by
  fin_cases h <;> rfl

theorem getD_segment_mem (t : Table) (k : String) (vs : List String) (h : getD t k = some vs) :
    (k ++ " " ++ String.intercalate " " vs) ∈ cspSegments t := by
  have hm := getD_mem t k vs h
  unfold cspSegments
  exact List.mem_map.mpr ⟨(k, vs), hm, rfl⟩

theorem copyPair_missing (t : Table) (b g : String)
    (h : hasKey t b = false ∨ hasKey t g = false) : copyPair t b g = t := by
  unfold copyPair
  cases hb : getD t b with
  | none => rfl
  | some bs =>
    cases hg : getD t g with
    | none => rfl
    | some gs =>
      rcases h with h | h
      · simp [hasKey, hb] at h
      · simp [hasKey, hg] at h

theorem bool_eq_of_iff {a b : Bool} (h : a = true ↔ b = true) : a = b := by
  cases a <;> cases b <;> simp_all

/-- Tables with the same key set and the same per-directive token membership
stay that way through one granular copy. -/
theorem copyPair_equiv (u1 u2 : Table) (b g : String)
    (hk : ∀ k, hasKey u1 k = hasKey u2 k)
    (hm : ∀ k x, x ∈ tokensT u1 k ↔ x ∈ tokensT u2 k) :
    (∀ k, hasKey (copyPair u1 b g) k = hasKey (copyPair u2 b g) k) ∧
    (∀ k x, x ∈ tokensT (copyPair u1 b g) k ↔ x ∈ tokensT (copyPair u2 b g) k) := by
  by_cases hpres : hasKey u1 b = true ∧ hasKey u1 g = true
  · obtain ⟨hb1, hg1⟩ := hpres
    have hb2 : hasKey u2 b = true := by rw [← hk b]; exact hb1
    have hg2 : hasKey u2 g = true := by rw [← hk g]; exact hg1
    constructor
    · intro k
      rw [copyPair_hasKey, copyPair_hasKey]
      exact hk k
    · intro k x
      by_cases hkg : k = g
      · subst hkg
        rw [copyPair_mem_g u1 b k hb1 hg1 x, copyPair_mem_g u2 b k hb2 hg2 x]
        rw [hm k x, hm b x]
      · rw [copyPair_tokensT_ne u1 b g k hkg, copyPair_tokensT_ne u2 b g k hkg]
        exact hm k x
  · rw [not_and_or] at hpres
    have hmiss1 : hasKey u1 b = false ∨ hasKey u1 g = false := by
      rcases hpres with h | h
      · exact Or.inl (by simpa using h)
      · exact Or.inr (by simpa using h)
    have hmiss2 : hasKey u2 b = false ∨ hasKey u2 g = false := by
      rcases hmiss1 with h | h
      · exact Or.inl (by rw [← hk b]; exact h)
      · exact Or.inr (by rw [← hk g]; exact h)
    rw [copyPair_missing u1 b g hmiss1, copyPair_missing u2 b g hmiss2]
    exact ⟨hk, hm⟩

theorem propagate_equiv (u1 u2 : Table)
    (hk : ∀ k, hasKey u1 k = hasKey u2 k)
    (hm : ∀ k x, x ∈ tokensT u1 k ↔ x ∈ tokensT u2 k) :
    (∀ k, hasKey (propagate u1) k = hasKey (propagate u2) k) ∧
    (∀ k x, x ∈ tokensT (propagate u1) k ↔ x ∈ tokensT (propagate u2) k) := by
  unfold propagate
  obtain ⟨hk1, hm1⟩ := copyPair_equiv u1 u2 "style-src" "style-src-elem" hk hm
  exact copyPair_equiv _ _ "script-src" "script-src-elem" hk1 hm1

theorem rulesTouch_pair_comm (A B : CspRule) (k : String) :
    rulesTouch [A, B] k ↔ rulesTouch [B, A] k := by
  simp only [rulesTouch_cons]
  have hnil : ¬rulesTouch [] k := by simp [rulesTouch]
  tauto

theorem rulesAdd_pair_comm (A B : CspRule) (k x : String) :
    rulesAdd [A, B] k x ↔ rulesAdd [B, A] k x := by
  simp only [rulesAdd_cons]
  have hnil : ¬rulesAdd [] k x := by simp [rulesAdd]
  tauto

theorem rulesMention_pair_comm (A B : CspRule) (k : String) :
    rulesMention [A, B] k ↔ rulesMention [B, A] k := by
  simp only [rulesMention_cons]
  have hnil : ¬rulesMention [] k := by simp [rulesMention]
  tauto

/-! ## Lemmas about the `mergeCspRules` / `mergeDirectivesWithDefaults` path -/

theorem hasKey_iff_mem_keys (t : Table) (k : String) :
    hasKey t k = true ↔ k ∈ t.map Prod.fst := by
  induction t with
  | nil => simp [hasKey, getD]
  | cons hd tl ih =>
    obtain ⟨k0, vs⟩ := hd
    by_cases h : k0 = k
    · subst h
      simp [hasKey, getD]
    · have h' : ¬(k = k0) := fun hh => h hh.symm
      simp only [hasKey, getD, if_neg h, List.map_cons, List.mem_cons]
      rw [← hasKey]
      rw [ih]
      simp [h']

theorem keys_setD (t : Table) (k : String) (vs : List String) :
    (setD t k vs).map Prod.fst
      = if hasKey t k = true then t.map Prod.fst else t.map Prod.fst ++ [k] := by
  induction t with
  | nil => simp [setD, hasKey, getD]
  | cons hd tl ih =>
    obtain ⟨k0, w⟩ := hd
    by_cases h : k0 = k
    · subst h
      simp [setD, hasKey, getD]
    · have hk : hasKey ((k0, w) :: tl) k = hasKey tl k := by
        simp [hasKey, getD, h]
      simp only [setD, if_neg h, List.map_cons]
      rw [ih, hk]
      split <;> simp

theorem nodup_keys_setD (t : Table) (k : String) (vs : List String)
    (h : (t.map Prod.fst).Nodup) : ((setD t k vs).map Prod.fst).Nodup := by
  rw [keys_setD]
  split
  · exact h
  · next hk =>
    rw [List.nodup_append]
    refine ⟨h, List.nodup_singleton k, ?_⟩
    intro a ha hb
    simp only [List.mem_singleton] at hb
    subst hb
    exact hk ((hasKey_iff_mem_keys t a).mpr ha)

theorem mergeCspField_getD_ne (m : Table) (k : String) (v : RuleValue) (k' : String)
    (h : k' ≠ k) : getD (mergeCspField m k v) k' = getD m k' := by
  unfold mergeCspField
  have h' : k ≠ k' := fun hh => h hh.symm
  split
  · rfl
  · rw [getD_setD_ne _ k k' _ h']
    split
    · rfl
    · exact getD_setD_ne m k k' [] h'

theorem mergeCspField_hasKey (m : Table) (k : String) (v : RuleValue) (k' : String) :
    hasKey (mergeCspField m k v) k' = true ↔
      hasKey m k' = true ∨ (k' = k ∧ ¬skipKey k) := by
  unfold mergeCspField
  split
  · next hsk =>
    constructor
    · exact Or.inl
    · rintro (hh | ⟨rfl, hns⟩)
      · exact hh
      · exact absurd hsk hns
  · next hsk =>
    by_cases hk : k' = k
    · subst hk
      rw [hasKey_setD_self]
      simp [hsk]
    · have h' : k ≠ k' := fun hh => hk hh.symm
      rw [hasKey_setD_ne _ k k' _ h']
      have h2 : hasKey (if hasKey m k = true then m else setD m k []) k' = hasKey m k' := by
        split
        · rfl
        · exact hasKey_setD_ne m k k' [] h'
      rw [h2]
      simp [hk]

theorem mergeCspField_mem (m : Table) (k : String) (v : RuleValue) (x : String)
    (hsk : ¬skipKey k) :
    x ∈ tokensT (mergeCspField m k v) k ↔ x ∈ tokensT m k ∨ x ∈ normMerge v := by
  unfold mergeCspField
  rw [if_neg hsk, tokensT_setD_self, mem_foldl_addTok, tokensT_ensure]

theorem mergeCspField_values_nodup (m : Table) (k : String) (v : RuleValue)
    (hinv : ∀ k' vs, getD m k' = some vs → vs.Nodup) :
    ∀ k' vs, getD (mergeCspField m k v) k' = some vs → vs.Nodup := by
  intro k' vs hg
  by_cases hk : k' = k
  · subst hk
    unfold mergeCspField at hg
    split at hg
    · exact hinv k' vs hg
    · rw [getD_setD_self] at hg
      cases hg
      apply nodup_foldl_addTok
      rw [tokensT_ensure]
      unfold tokensT
      cases hgd : getD m k' with
      | none => simp
      | some w => simpa using hinv k' w hgd
  · rw [mergeCspField_getD_ne m k v k' hk] at hg
    exact hinv k' vs hg

theorem mergeCspField_keys_nodup (m : Table) (k : String) (v : RuleValue)
    (h : (m.map Prod.fst).Nodup) : ((mergeCspField m k v).map Prod.fst).Nodup := by
  unfold mergeCspField
  split
  · exact h
  · apply nodup_keys_setD
    split
    · exact h
    · exact nodup_keys_setD m k [] h

theorem exists_field_cons (k0 : String) (v0 : RuleValue) (rest : CspRule) (k : String)
    (P : RuleValue → Prop) :
    (∃ v, (k, v) ∈ (k0, v0) :: rest ∧ P v) ↔
      ((k = k0 ∧ P v0) ∨ ∃ v, (k, v) ∈ rest ∧ P v) := by
  simp only [List.mem_cons, Prod.mk.injEq]
  constructor
  · rintro ⟨v, (⟨rfl, rfl⟩ | hm), hp⟩
    · exact Or.inl ⟨rfl, hp⟩
    · exact Or.inr ⟨v, hm, hp⟩
  · rintro (⟨rfl, hp⟩ | ⟨v, hm, hp⟩)
    · exact ⟨v0, Or.inl ⟨rfl, rfl⟩, hp⟩
    · exact ⟨v, Or.inr hm, hp⟩

theorem exists_field_cons_bare (k0 : String) (v0 : RuleValue) (rest : CspRule) (k : String) :
    (∃ v, (k, v) ∈ (k0, v0) :: rest) ↔ (k = k0 ∨ ∃ v, (k, v) ∈ rest) := by
  simp only [List.mem_cons, Prod.mk.injEq]
  constructor
  · rintro ⟨v, (⟨rfl, rfl⟩ | hm)⟩
    · exact Or.inl rfl
    · exact Or.inr ⟨v, hm⟩
  · rintro (rfl | ⟨v, hm⟩)
    · exact ⟨v0, Or.inl ⟨rfl, rfl⟩⟩
    · exact ⟨v, Or.inr hm⟩

theorem exists_rule_cons (r0 : CspRule) (rest : List CspRule) (P : CspRule → Prop) :
    (∃ r ∈ r0 :: rest, P r) ↔ P r0 ∨ ∃ r ∈ rest, P r := by
  constructor
  · rintro ⟨r, hr, hp⟩
    rcases List.mem_cons.mp hr with rfl | hm
    · exact Or.inl hp
    · exact Or.inr ⟨r, hm, hp⟩
  · rintro (hp | ⟨r, hm, hp⟩)
    · exact ⟨r0, List.mem_cons_self .., hp⟩
    · exact ⟨r, List.mem_cons_of_mem _ hm, hp⟩

theorem foldl_mergeCspField_mem (r : CspRule) :
    ∀ (m : Table) (k x : String),
      x ∈ tokensT (r.foldl (fun acc kv => mergeCspField acc kv.1 kv.2) m) k ↔
        x ∈ tokensT m k ∨ (¬skipKey k ∧ ∃ v, (k, v) ∈ r ∧ x ∈ normMerge v) := by
  induction r with
  | nil =>
    intro m k x
    simp
  | cons kv rest ih =>
    intro m k x
    obtain ⟨k0, v0⟩ := kv
    show x ∈ tokensT (rest.foldl _ (mergeCspField m k0 v0)) k ↔ _
    rw [ih (mergeCspField m k0 v0) k x,
      exists_field_cons k0 v0 rest k (fun v => x ∈ normMerge v)]
    by_cases hk : k = k0
    · subst hk
      by_cases hsk : skipKey k
      · have hfield : mergeCspField m k v0 = m := by
          unfold mergeCspField; rw [if_pos hsk]
        rw [hfield]
        simp only [eq_self_iff_true, true_and]
        tauto
      · rw [mergeCspField_mem m k v0 x hsk]
        simp only [eq_self_iff_true, true_and]
        tauto
    · have hne : tokensT (mergeCspField m k0 v0) k = tokensT m k := by
        unfold tokensT
        rw [mergeCspField_getD_ne m k0 v0 k hk]
      rw [hne]
      have hno : ¬(k = k0) := hk
      tauto

theorem foldl_mergeCspField_hasKey (r : CspRule) :
    ∀ (m : Table) (k : String),
      hasKey (r.foldl (fun acc kv => mergeCspField acc kv.1 kv.2) m) k = true ↔
        hasKey m k = true ∨ (¬skipKey k ∧ ∃ v, (k, v) ∈ r) := by
  induction r with
  | nil =>
    intro m k
    simp
  | cons kv rest ih =>
    intro m k
    obtain ⟨k0, v0⟩ := kv
    show hasKey (rest.foldl _ (mergeCspField m k0 v0)) k = true ↔ _
    rw [ih (mergeCspField m k0 v0) k, mergeCspField_hasKey m k0 v0 k,
      exists_field_cons_bare k0 v0 rest k]
    by_cases hk : k = k0
    · subst hk
      simp only [eq_self_iff_true, true_and, true_or, and_true]
      tauto
    · simp only [hk, false_and, false_or, or_false]

theorem foldl_mergeCspField_values_nodup (r : CspRule) :
    ∀ (m : Table), (∀ k vs, getD m k = some vs → vs.Nodup) →
      ∀ k vs, getD (r.foldl (fun acc kv => mergeCspField acc kv.1 kv.2) m) k = some vs →
        vs.Nodup := by
  induction r with
  | nil => intro m hinv; exact hinv
  | cons kv rest ih =>
    intro m hinv
    exact ih (mergeCspField m kv.1 kv.2) (mergeCspField_values_nodup m kv.1 kv.2 hinv)

theorem foldl_mergeCspField_keys_nodup (r : CspRule) :
    ∀ (m : Table), (m.map Prod.fst).Nodup →
      (((r.foldl (fun acc kv => mergeCspField acc kv.1 kv.2) m)).map Prod.fst).Nodup := by
  induction r with
  | nil => intro m h; exact h
  | cons kv rest ih =>
    intro m h
    exact ih (mergeCspField m kv.1 kv.2) (mergeCspField_keys_nodup m kv.1 kv.2 h)

theorem mergeCspRules_foldl_mem (rules : List CspRule) :
    ∀ (m : Table) (k x : String),
      x ∈ tokensT (rules.foldl (fun m r => r.foldl (fun m kv => mergeCspField m kv.1 kv.2) m) m)
          k ↔
        x ∈ tokensT m k ∨
          (¬skipKey k ∧ ∃ r ∈ rules, ∃ v, (k, v) ∈ r ∧ x ∈ normMerge v) := by
  induction rules with
  | nil =>
    intro m k x
    simp
  | cons r0 rest ih =>
    intro m k x
    show x ∈ tokensT (rest.foldl _ (r0.foldl _ m)) k ↔ _
    rw [ih (r0.foldl (fun m kv => mergeCspField m kv.1 kv.2) m) k x,
      foldl_mergeCspField_mem r0 m k x,
      exists_rule_cons r0 rest (fun r => ∃ v, (k, v) ∈ r ∧ x ∈ normMerge v)]
    constructor
    · rintro ((hx | ⟨hns, hv⟩) | ⟨hns, hr⟩)
      · exact Or.inl hx
      · exact Or.inr ⟨hns, Or.inl hv⟩
      · exact Or.inr ⟨hns, Or.inr hr⟩
    · rintro (hx | ⟨hns, (hv | hr)⟩)
      · exact Or.inl (Or.inl hx)
      · exact Or.inl (Or.inr ⟨hns, hv⟩)
      · exact Or.inr ⟨hns, hr⟩

theorem mergeCspRules_mem (rules : List CspRule) (k x : String) :
    x ∈ tokensT (mergeCspRules rules) k ↔
      ¬skipKey k ∧ ∃ r ∈ rules, ∃ v, (k, v) ∈ r ∧ x ∈ normMerge v := by
  unfold mergeCspRules
  rw [mergeCspRules_foldl_mem rules [] k x]
  simp [tokensT, getD]

theorem mergeCspRules_foldl_hasKey (rules : List CspRule) :
    ∀ (m : Table) (k : String),
      hasKey (rules.foldl (fun m r => r.foldl (fun m kv => mergeCspField m kv.1 kv.2) m) m) k
          = true ↔
        hasKey m k = true ∨ (¬skipKey k ∧ ∃ r ∈ rules, ∃ v, (k, v) ∈ r) := by
  induction rules with
  | nil =>
    intro m k
    simp
  | cons r0 rest ih =>
    intro m k
    show hasKey (rest.foldl _ (r0.foldl _ m)) k = true ↔ _
    rw [ih (r0.foldl (fun m kv => mergeCspField m kv.1 kv.2) m) k,
      foldl_mergeCspField_hasKey r0 m k,
      exists_rule_cons r0 rest (fun r => ∃ v, (k, v) ∈ r)]
    constructor
    · rintro ((hx | ⟨hns, hv⟩) | ⟨hns, hr⟩)
      · exact Or.inl hx
      · exact Or.inr ⟨hns, Or.inl hv⟩
      · exact Or.inr ⟨hns, Or.inr hr⟩
    · rintro (hx | ⟨hns, (hv | hr)⟩)
      · exact Or.inl (Or.inl hx)
      · exact Or.inl (Or.inr ⟨hns, hv⟩)
      · exact Or.inr ⟨hns, hr⟩

theorem mergeCspRules_hasKey (rules : List CspRule) (k : String) :
    hasKey (mergeCspRules rules) k = true ↔
      ¬skipKey k ∧ ∃ r ∈ rules, ∃ v, (k, v) ∈ r := by
  unfold mergeCspRules
  rw [mergeCspRules_foldl_hasKey rules [] k]
  simp [hasKey, getD]

theorem mergeCspRules_foldl_values_nodup (rules : List CspRule) :
    ∀ (m : Table), (∀ k vs, getD m k = some vs → vs.Nodup) →
      ∀ k vs,
        getD (rules.foldl (fun m r => r.foldl (fun m kv => mergeCspField m kv.1 kv.2) m) m) k
          = some vs → vs.Nodup := by
  induction rules with
  | nil => intro m hinv; exact hinv
  | cons r0 rest ih =>
    intro m hinv
    exact ih _ (foldl_mergeCspField_values_nodup r0 m hinv)

theorem mergeCspRules_values_nodup (rules : List CspRule) :
    ∀ k vs, getD (mergeCspRules rules) k = some vs → vs.Nodup := by
  unfold mergeCspRules
  exact mergeCspRules_foldl_values_nodup rules []
    (by intro k vs h; simp [getD] at h)

theorem mergeCspRules_foldl_keys_nodup (rules : List CspRule) :
    ∀ (m : Table), (m.map Prod.fst).Nodup →
      ((rules.foldl (fun m r => r.foldl (fun m kv => mergeCspField m kv.1 kv.2) m) m).map
        Prod.fst).Nodup := by
  induction rules with
  | nil => intro m h; exact h
  | cons r0 rest ih =>
    intro m h
    exact ih _ (foldl_mergeCspField_keys_nodup r0 m h)

theorem mergeCspRules_keys_nodup (rules : List CspRule) :
    ((mergeCspRules rules).map Prod.fst).Nodup := by
  unfold mergeCspRules
  exact mergeCspRules_foldl_keys_nodup rules [] (by simp)

theorem getD_of_mem_of_nodup (t : Table) (hnd : (t.map Prod.fst).Nodup) (k : String)
    (vs : List String) (hm : (k, vs) ∈ t) : getD t k = some vs := by
  induction t with
  | nil => simp at hm
  | cons e tl ih =>
    obtain ⟨k0, vs0⟩ := e
    simp only [List.map_cons, List.nodup_cons] at hnd
    rcases List.mem_cons.mp hm with he | hm2
    · injection he with h1 h2
      subst h1
      subst h2
      simp [getD]
    · have hne : k0 ≠ k := by
        rintro rfl
        exact hnd.1 (List.mem_map.mpr ⟨(k0, vs), hm2, rfl⟩)
      simp only [getD, if_neg hne]
      exact ih hnd.2 hm2

theorem mergeDefaultsStep_getD_ne (acc : Table) (k : String) (vs : List String) (k' : String)
    (h : k' ≠ k) : getD (mergeDefaultsStep acc k vs) k' = getD acc k' := by
  unfold mergeDefaultsStep mergeDefaultsInit
  have h' : k ≠ k' := fun hh => h hh.symm
  split
  · rfl
  · rw [getD_setD_ne _ k k' _ h']
    split
    · rfl
    · split
      · exact getD_setD_ne acc k k' [] h'
      · exact getD_setD_ne acc k k' ["'self'"] h'

theorem mergeDefaultsStep_hasKey_ne (acc : Table) (k : String) (vs : List String) (k' : String)
    (h : k' ≠ k) : hasKey (mergeDefaultsStep acc k vs) k' = hasKey acc k' := by
  unfold hasKey
  rw [mergeDefaultsStep_getD_ne acc k vs k' h]

theorem mergeDefaultsStep_getD_self_new (acc : Table) (k : String) (vs : List String)
    (hk : hasKey acc k = false) (hvs : vs ≠ []) :
    getD (mergeDefaultsStep acc k vs) k =
      some (vs.foldl addTok (if k ∈ DIRECTIVES_WITHOUT_SELF then [] else ["'self'"])) := by
  unfold mergeDefaultsStep mergeDefaultsInit
  rw [if_neg hvs, if_neg (by rw [hk]; simp : ¬(hasKey acc k = true))]
  by_cases hmem : k ∈ DIRECTIVES_WITHOUT_SELF
  · rw [if_pos hmem, if_pos hmem, tokensT_setD_self, getD_setD_self]
  · rw [if_neg hmem, if_neg hmem, tokensT_setD_self, getD_setD_self]

theorem foldl_mergeDefaultsStep_getD_of_not_mem (entries : Table) (key : String)
    (hnot : ∀ e ∈ entries, e.1 ≠ key) :
    ∀ acc : Table,
      getD (entries.foldl (fun acc kv => mergeDefaultsStep acc kv.1 kv.2) acc) key
        = getD acc key := by
  induction entries with
  | nil => intro acc; rfl
  | cons e rest ih =>
    intro acc
    show getD (rest.foldl _ (mergeDefaultsStep acc e.1 e.2)) key = _
    rw [ih (fun e' he' => hnot e' (List.mem_cons_of_mem _ he')) (mergeDefaultsStep acc e.1 e.2),
      mergeDefaultsStep_getD_ne acc e.1 e.2 key (Ne.symm (hnot e (List.mem_cons_self ..)))]

theorem foldl_mergeDefaultsStep_getD (entries : Table) (key : String) (vs : List String) :
    ∀ acc : Table, (entries.map Prod.fst).Nodup → getD entries key = some vs →
      hasKey acc key = false → vs ≠ [] →
      getD (entries.foldl (fun acc kv => mergeDefaultsStep acc kv.1 kv.2) acc) key
        = some (vs.foldl addTok (if key ∈ DIRECTIVES_WITHOUT_SELF then [] else ["'self'"])) := by
  induction entries with
  | nil =>
    intro acc _ hg
    simp [getD] at hg
  | cons e rest ih =>
    intro acc hnodup hg hacc hvs
    obtain ⟨k0, vs0⟩ := e
    by_cases hk : k0 = key
    · have hg' : vs0 = vs := by simpa [getD, hk] using hg
      have hkeyrest : ∀ e' ∈ rest, e'.1 ≠ key := by
        intro e' he' heq
        simp only [List.map_cons, List.nodup_cons] at hnodup
        rw [hk] at hnodup
        exact hnodup.1 (List.mem_map.mpr ⟨e', he', heq⟩)
      show getD (rest.foldl _ (mergeDefaultsStep acc k0 vs0)) key = _
      rw [foldl_mergeDefaultsStep_getD_of_not_mem rest key hkeyrest
        (mergeDefaultsStep acc k0 vs0), hk, hg']
      exact mergeDefaultsStep_getD_self_new acc key vs hacc hvs
    · have hg2 : getD rest key = some vs := by simpa [getD, hk] using hg
      have hnodup2 : (rest.map Prod.fst).Nodup := by
        simp only [List.map_cons, List.nodup_cons] at hnodup
        exact hnodup.2
      have hacc2 : hasKey (mergeDefaultsStep acc k0 vs0) key = false := by
        rw [mergeDefaultsStep_hasKey_ne acc k0 vs0 key (fun hh => hk hh.symm)]
        exact hacc
      exact ih (mergeDefaultsStep acc k0 vs0) hnodup2 hg2 hacc2 hvs

theorem foldl_mergeDefaultsStep_hasKey_false (entries : Table) (key : String)
    (hent : ∀ e ∈ entries, e.1 = key → e.2 = []) :
    ∀ acc : Table, hasKey acc key = false →
      hasKey (entries.foldl (fun acc kv => mergeDefaultsStep acc kv.1 kv.2) acc) key
        = false := by
  induction entries with
  | nil => intro acc h; exact h
  | cons e rest ih =>
    intro acc hacc
    show hasKey (rest.foldl _ (mergeDefaultsStep acc e.1 e.2)) key = false
    apply ih (fun e' he' => hent e' (List.mem_cons_of_mem _ he'))
    by_cases hk : e.1 = key
    · have hv : e.2 = [] := hent e (List.mem_cons_self ..) hk
      have hstep : mergeDefaultsStep acc e.1 e.2 = acc := by
        unfold mergeDefaultsStep
        rw [hv, if_pos rfl]
      rw [hstep]
      exact hacc
    · rw [mergeDefaultsStep_hasKey_ne acc e.1 e.2 key (fun hh => hk hh.symm)]
      exact hacc

theorem getD_map_dedup (defaults : Table) (key : String) :
    getD (defaults.map fun kv => (kv.1, dedupTok kv.2)) key
      = (getD defaults key).map dedupTok := by
  induction defaults with
  | nil => simp [getD]
  | cons e tl ih =>
    obtain ⟨k0, vs0⟩ := e
    by_cases h : k0 = key
    · subst h
      simp [getD]
    · simp [getD, h, ih]

theorem hasKey_map_dedup (defaults : Table) (key : String) :
    hasKey (defaults.map fun kv => (kv.1, dedupTok kv.2)) key = hasKey defaults key := by
  unfold hasKey
  rw [getD_map_dedup defaults key]
  cases getD defaults key <;> rfl

theorem mergeDWD_getD_new (defaults : Table) (rules : List CspRule) (key : String)
    (vs : List String) (hd : hasKey defaults key = false)
    (hu : getD (mergeCspRules rules) key = some vs) (hvs : vs ≠ []) :
    getD (mergeDirectivesWithDefaults defaults rules) key
      = some (vs.foldl addTok (if key ∈ DIRECTIVES_WITHOUT_SELF then [] else ["'self'"])) := by
  unfold mergeDirectivesWithDefaults
  have hinit : hasKey (defaults.map fun kv => (kv.1, dedupTok kv.2)) key = false := by
    rw [hasKey_map_dedup]
    exact hd
  exact foldl_mergeDefaultsStep_getD (mergeCspRules rules) key vs _
    (mergeCspRules_keys_nodup rules) hu hinit hvs

theorem mergeDWD_hasKey_false (defaults : Table) (rules : List CspRule) (key : String)
    (hd : hasKey defaults key = false)
    (hu : getD (mergeCspRules rules) key = none ∨ getD (mergeCspRules rules) key = some []) :
    hasKey (mergeDirectivesWithDefaults defaults rules) key = false := by
  unfold mergeDirectivesWithDefaults
  have hinit : hasKey (defaults.map fun kv => (kv.1, dedupTok kv.2)) key = false := by
    rw [hasKey_map_dedup]
    exact hd
  apply foldl_mergeDefaultsStep_hasKey_false (mergeCspRules rules) key _ _ hinit
  intro e he heq
  have hge : getD (mergeCspRules rules) e.1 = some e.2 :=
    getD_of_mem_of_nodup (mergeCspRules rules) (mergeCspRules_keys_nodup rules) e.1 e.2
      (by cases e; exact he)
  rw [heq] at hge
  rcases hu with hu | hu
  · rw [hu] at hge; cases hge
  · rw [hu] at hge
    exact (Option.some.inj hge).symm

/-! ## Whitespace and trim lemmas -/

theorem dropWhile_isWs_idem (l : List Char) :
    (l.dropWhile isWs).dropWhile isWs = l.dropWhile isWs := by
  induction l with
  | nil => rfl
  | cons c cs ih =>
    by_cases h : isWs c = true
    · rw [List.dropWhile_cons, if_pos h]
      exact ih
    · rw [List.dropWhile_cons, if_neg h, List.dropWhile_cons, if_neg h]

theorem dropWhile_isWs_head (l : List Char) (c : Char) (cs : List Char)
    (h : l.dropWhile isWs = c :: cs) : isWs c = false := by
  induction l with
  | nil => simp at h
  | cons a tl ih =>
    by_cases ha : isWs a = true
    · rw [List.dropWhile_cons, if_pos ha] at h
      exact ih h
    · rw [List.dropWhile_cons, if_neg ha] at h
      cases h
      simpa using ha

theorem dropWhile_eq_self_of_head (c : Char) (cs : List Char) (h : isWs c = false) :
    (c :: cs).dropWhile isWs = c :: cs := by
  rw [List.dropWhile_cons, if_neg (by simp [h])]

/-- The back-trimming half of `charTrim` returns a prefix of its input. -/
theorem backTrim_prefix (m : List Char) :
    ((m.reverse.dropWhile isWs).reverse) <+: m := by
  have h : m.reverse.dropWhile isWs <:+ m.reverse := List.dropWhile_suffix isWs
  have h2 : (m.reverse.dropWhile isWs).reverse <+: (m.reverse).reverse :=
    List.reverse_prefix.mpr h
  rwa [List.reverse_reverse] at h2

theorem charTrim_dropWhile (l : List Char) :
    (charTrim l).dropWhile isWs = charTrim l := by
  cases hbv : charTrim l with
  | nil => rfl
  | cons c cs =>
    have hpre : charTrim l <+: l.dropWhile isWs := backTrim_prefix (l.dropWhile isWs)
    obtain ⟨t, ht⟩ := hpre
    rw [hbv] at ht
    have hcf : isWs c = false := by
      apply dropWhile_isWs_head l c (cs ++ t)
      exact ht.symm
    exact dropWhile_eq_self_of_head c cs hcf

theorem charTrim_idem (l : List Char) : charTrim (charTrim l) = charTrim l := by
  have hrev : (charTrim l).reverse = (l.dropWhile isWs).reverse.dropWhile isWs := by
    unfold charTrim
    rw [List.reverse_reverse]
  calc charTrim (charTrim l)
      = (((charTrim l).dropWhile isWs).reverse.dropWhile isWs).reverse := rfl
    _ = ((charTrim l).reverse.dropWhile isWs).reverse := by rw [charTrim_dropWhile]
    _ = (((l.dropWhile isWs).reverse.dropWhile isWs).dropWhile isWs).reverse := by rw [hrev]
    _ = ((l.dropWhile isWs).reverse.dropWhile isWs).reverse := by
        rw [dropWhile_isWs_idem]
    _ = charTrim l := rfl

theorem dropWhile_eq_self_of_wsFree (l : List Char) (h : ∀ c ∈ l, isWs c = false) :
    l.dropWhile isWs = l := by
  cases l with
  | nil => rfl
  | cons c cs => exact dropWhile_eq_self_of_head c cs (h c (List.mem_cons_self ..))

theorem charTrim_wsFree (l : List Char) (h : ∀ c ∈ l, isWs c = false) : charTrim l = l := by
  unfold charTrim
  rw [dropWhile_eq_self_of_wsFree l h,
    dropWhile_eq_self_of_wsFree l.reverse (fun c hc => h c (List.mem_reverse.mp hc)),
    List.reverse_reverse]

theorem charWordsAux_wsFree : ∀ (l cur : List Char), (∀ c ∈ cur, isWs c = false) →
    ∀ w ∈ charWordsAux cur l, ∀ c ∈ w, isWs c = false := by
  intro l
  induction l with
  | nil =>
    intro cur hcur w hw c hc
    unfold charWordsAux at hw
    split at hw
    · simp at hw
    · simp only [List.mem_singleton] at hw
      subst hw
      exact hcur c (List.mem_reverse.mp hc)
  | cons a tl ih =>
    intro cur hcur w hw c hc
    rw [show charWordsAux cur (a :: tl)
        = if isWs a then
            (if cur = [] then charWordsAux [] tl else cur.reverse :: charWordsAux [] tl)
          else charWordsAux (a :: cur) tl from rfl] at hw
    by_cases ha : isWs a = true
    · rw [if_pos ha] at hw
      split at hw
      · exact ih [] (by simp) w hw c hc
      · rcases List.mem_cons.mp hw with rfl | hw2
        · exact hcur c (List.mem_reverse.mp hc)
        · exact ih [] (by simp) w hw2 c hc
    · rw [if_neg ha] at hw
      refine ih (a :: cur) ?_ w hw c hc
      intro c' hc'
      rcases List.mem_cons.mp hc' with rfl | hh
      · simpa using ha
      · exact hcur c' hh

theorem jsWords_trim_fixed (s : String) : ∀ w ∈ jsWords s, jsTrim w = w := by
  intro w hw
  unfold jsWords at hw
  obtain ⟨lw, hlw, rfl⟩ := List.mem_map.mp hw
  have hfree := charWordsAux_wsFree s.data [] (by simp) lw hlw
  show (⟨charTrim (String.data ⟨lw⟩)⟩ : String) = ⟨lw⟩
  rw [show String.data ⟨lw⟩ = lw from rfl, charTrim_wsFree lw hfree]

theorem jsTrim_idem (s : String) : jsTrim (jsTrim s) = jsTrim s := by
  show (⟨charTrim (String.data ⟨charTrim s.data⟩)⟩ : String) = ⟨charTrim s.data⟩
  rw [show String.data (⟨charTrim s.data⟩ : String) = charTrim s.data from rfl, charTrim_idem]

theorem normMerge_trim_fixed (v : RuleValue) (x : String) (h : x ∈ normMerge v) :
    jsTrim x = x := by
  cases v with
  | boolean b =>
    simp only [normMerge] at h
    cases b with
    | true => simp at h; subst h; rfl
    | false => simp at h
  | list vs =>
    simp only [normMerge] at h
    rw [List.mem_filter] at h
    obtain ⟨hm, -⟩ := h
    obtain ⟨y, -, rfl⟩ := List.mem_map.mp hm
    exact jsTrim_idem y
  | str s =>
    simp only [normMerge] at h
    split at h
    · simp at h; subst h; rfl
    · exact jsWords_trim_fixed s x h

theorem list_eq_singleton_of_nodup {α : Type} (s : List α) (a : α) (hnd : s.Nodup)
    (hsub : ∀ x ∈ s, x = a) (hmem : a ∈ s) : s = [a] := by
  cases s with
  | nil => simp at hmem
  | cons x tl =>
    have hx : x = a := hsub x (List.mem_cons_self ..)
    subst hx
    rw [List.nodup_cons] at hnd
    have htl : tl = [] := by
      rw [List.eq_nil_iff_forall_not_mem]
      intro y hy
      have : y = x := hsub y (List.mem_cons_of_mem _ hy)
      subst this
      exact hnd.1 hy
    rw [htl]

theorem hasKey_false_getD_none (t : Table) (k : String) (h : hasKey t k = false) :
    getD t k = none := by
  unfold hasKey at h
  cases hg : getD t k with
  | none => rfl
  | some vs => rw [hg] at h; simp at h

theorem serializeEntry_boolean (key : String) : serializeEntry key [""] = key := by
  unfold serializeEntry
  rw [if_pos (Or.inr rfl)]

/-- A rule with a boolean field at a non-metadata key makes the merge loop
of `buildCspHeader` throw. -/
theorem buildCspTable_boolean_throws (rules : List CspRule) (nonce : String) (isDev : Bool)
    (key : String) (b : Bool) (hsk : ¬skipKey key)
    (h : ∃ r ∈ rules, (key, RuleValue.boolean b) ∈ r) :
    buildCspTable rules nonce isDev = none := by
  obtain ⟨r, hr, hkv⟩ := h
  have hnwf : ¬wellFormedRule r := by
    intro hwf
    have := hwf (key, RuleValue.boolean b) hkv hsk
    simp [isBoolV] at this
  have hnone : mergeAllRules (baseTable nonce isDev) rules = none := by
    cases hm : mergeAllRules (baseTable nonce isDev) rules with
    | none => rfl
    | some m =>
      exfalso
      apply hnwf
      exact (mergeAllRules_isSome (baseTable nonce isDev) rules).mp (by rw [hm]; rfl) r hr
  unfold buildCspTable buildCspMerged
  rw [hnone]
  rfl

/-! ## String-level helper: a nonce token never collides with a fixed keyword -/

theorem nonce_tok_take7 (n : String) :
    (("'nonce-" ++ n ++ "'").data).take 7 = "'nonce-".data := by
  rw [String.data_append, String.data_append, List.append_assoc]
  have h := List.take_left "'nonce-".data (n.data ++ "'".data)
  rwa [show ("'nonce-".data).length = 7 from rfl] at h

theorem ne_nonce_tok (n w : String) (h : (w.data).take 7 ≠ "'nonce-".data) :
    w ≠ "'nonce-" ++ n ++ "'" := by
  intro he
  apply h
  rw [he]
  exact nonce_tok_take7 n

/-! ## Claim theorems -/

/-- C1: the claim states that in the directive table `buildCspHeader`
produces, `'none'` never coexists with other tokens, and that `'none'`
never survives when the merged input held any non-`'none'` token.  The code
violates this: granular propagation copies the reset `'none'` of
`script-src` into `script-src-elem`, which already holds the nonce and
`'strict-dynamic'` tokens.  This theorem evaluates the code at the failing
input `rules = [{"script-src": "'none'"}]`, `nonce = "abc"`, `isDev =
false`. -/
theorem C1_none_exclusivity_violated :
    tokensT ((buildCspTable [[("script-src", RuleValue.str "'none'")]] "abc" false).getD [])
        "script-src-elem"
      = ["'nonce-abc'", "'strict-dynamic'", "'none'"] ∧
    tokensT ((buildCspTable [[("script-src", RuleValue.str "'none'")]] "abc" false).getD [])
        "script-src"
      = ["'none'"] := by
  constructor <;> rfl

/-- C3: in the baseline policy (both `getDefaultCspDirectives` and the
baseline table inside `buildCspHeader`), a non-empty nonce puts
`'nonce-<value>'` and `'strict-dynamic'` into `script-src`, keeps
`'unsafe-inline'` out, and adds `'unsafe-eval'` exactly in dev mode; with
no nonce, `script-src` holds `'self'` and `'unsafe-inline'` instead. -/
theorem C3_nonce_substitution (isDev : Bool) (n : String) (hn : n ≠ "") :
    (("'nonce-" ++ n ++ "'") ∈ tokensT (getDefaultCspDirectives isDev (some n)) "script-src" ∧
     "'strict-dynamic'" ∈ tokensT (getDefaultCspDirectives isDev (some n)) "script-src" ∧
     "'unsafe-inline'" ∉ tokensT (getDefaultCspDirectives isDev (some n)) "script-src" ∧
     ("'unsafe-eval'" ∈ tokensT (getDefaultCspDirectives isDev (some n)) "script-src" ↔
       isDev = true)) ∧
    ("'self'" ∈ tokensT (getDefaultCspDirectives isDev none) "script-src" ∧
     "'unsafe-inline'" ∈ tokensT (getDefaultCspDirectives isDev none) "script-src") ∧
    (("'nonce-" ++ n ++ "'") ∈ tokensT (baseTable n isDev) "script-src" ∧
     "'strict-dynamic'" ∈ tokensT (baseTable n isDev) "script-src" ∧
     "'unsafe-inline'" ∉ tokensT (baseTable n isDev) "script-src" ∧
     ("'unsafe-eval'" ∈ tokensT (baseTable n isDev) "script-src" ↔ isDev = true)) := by
  have htn : truthyNonce (some n) = some n := by
    show (if n = "" then none else some n : Option String) = some n
    rw [if_neg hn]
  have hne1 : "'unsafe-inline'" ≠ "'nonce-" ++ n ++ "'" :=
    ne_nonce_tok n "'unsafe-inline'" (by decide)
  have hne2 : "'unsafe-eval'" ≠ "'nonce-" ++ n ++ "'" :=
    ne_nonce_tok n "'unsafe-eval'" (by decide)
  have hne3 : "'unsafe-inline'" ≠ "'strict-dynamic'" := by decide
  have hne4 : "'unsafe-inline'" ≠ "'unsafe-eval'" := by decide
  have hne5 : "'unsafe-eval'" ≠ "'strict-dynamic'" := by decide
  cases isDev with
  | false =>
    have hts : tokensT (getDefaultCspDirectives false (some n)) "script-src"
        = ["'nonce-" ++ n ++ "'", "'strict-dynamic'"] := by
      unfold getDefaultCspDirectives
      rw [htn]
      rfl
    have htb : tokensT (baseTable n false) "script-src"
        = ["'nonce-" ++ n ++ "'", "'strict-dynamic'"] := rfl
    have htsn : tokensT (getDefaultCspDirectives false none) "script-src"
        = ["'self'", "'unsafe-inline'"] := rfl
    rw [hts, htb, htsn]
    refine ⟨⟨by simp, by simp, ?_, ?_⟩, ⟨by simp, by simp⟩, by simp, by simp, ?_, ?_⟩ <;>
      simp [hne1, hne2, hne3, hne4, hne5]
  | true =>
    have hts : tokensT (getDefaultCspDirectives true (some n)) "script-src"
        = ["'nonce-" ++ n ++ "'", "'strict-dynamic'", "'unsafe-eval'"] := by
      unfold getDefaultCspDirectives
      rw [htn]
      rfl
    have htb : tokensT (baseTable n true) "script-src"
        = ["'nonce-" ++ n ++ "'", "'strict-dynamic'", "'unsafe-eval'"] := rfl
    have htsn : tokensT (getDefaultCspDirectives true none) "script-src"
        = ["'self'", "'unsafe-inline'", "'unsafe-eval'"] := rfl
    rw [hts, htb, htsn]
    refine ⟨⟨by simp, by simp, ?_, ?_⟩, ⟨by simp, by simp⟩, by simp, by simp, ?_, ?_⟩ <;>
      simp [hne1, hne2, hne3, hne4, hne5]

theorem C3_nonce_substitution_witness :
    ("'nonce-" ++ "ABCDEFGHIJKLMNOPQRSTUVWXYZ" ++ "'")
      ∈ tokensT (getDefaultCspDirectives true (some "ABCDEFGHIJKLMNOPQRSTUVWXYZ")) "script-src" :=
  (C3_nonce_substitution true "ABCDEFGHIJKLMNOPQRSTUVWXYZ" (by decide)).1.1

/-- C10: every one of the 18 baseline directive names survives into the
final table of `buildCspHeader`, whatever the rules: its key is present and
its segment occurs in the serialized output. -/
theorem C10_baseline_directives_persist (rules : List CspRule) (nonce : String) (isDev : Bool)
    (t : Table) (h : buildCspTable rules nonce isDev = some t) :
    ∀ name ∈ baselineDirectiveNames, ∃ vs, getD t name = some vs ∧
      (name ++ " " ++ String.intercalate " " vs) ∈ cspSegments t := by
  intro name hname
  unfold buildCspTable at h
  cases hm : buildCspMerged rules nonce isDev with
  | none => rw [hm] at h; simp at h
  | some m =>
    rw [hm] at h
    have h2 : propagate m = t := Option.some.inj h
    have hmk : hasKey m name = true := by
      rw [mergeAllRules_hasKey rules (baseTable nonce isDev) m hm name]
      exact Or.inl (baseTable_hasKey nonce isDev name hname)
    have hpk : hasKey t name = true := by
      rw [← h2]
      unfold propagate
      rw [copyPair_hasKey, copyPair_hasKey]
      exact hmk
    exact ⟨tokensT t name, tokensT_eq_of_hasKey t name hpk,
      getD_segment_mem t name _ (tokensT_eq_of_hasKey t name hpk)⟩

/-- C5 (amended): the `'self'` initialization is specific to the
`mergeDirectivesWithDefaults` path — there, a directive mentioned by a rule
but absent from the defaults is initialized with the single token `'self'`
before the rule tokens are added, unless it is in the fixed
`DIRECTIVES_WITHOUT_SELF` exclusion list, in which case it starts empty.
In `buildCspHeader` a missing directive is always initialized to the empty
list regardless of the exclusion list: every token it ends up holding was
supplied by some rule, so `'self'` is never added implicitly (see the
counterexample). -/
theorem C5_missing_directive_init_amended :
    (∀ (defaults : Table) (rules : List CspRule) (key : String) (vs : List String),
      hasKey defaults key = false → getD (mergeCspRules rules) key = some vs → vs ≠ [] →
      ∃ out, getD (mergeDirectivesWithDefaults defaults rules) key = some out ∧
        ∀ x, x ∈ out ↔ (key ∉ DIRECTIVES_WITHOUT_SELF ∧ x = "'self'") ∨ x ∈ vs) ∧
    (∀ (rules : List CspRule) (nonce : String) (isDev : Bool) (t : Table) (key x : String),
      buildCspTable rules nonce isDev = some t →
      hasKey (baseTable nonce isDev) key = false →
      x ∈ tokensT t key → rulesAdd rules key x) := by
  constructor
  · intro defaults rules key vs hd hu hvs
    refine ⟨_, mergeDWD_getD_new defaults rules key vs hd hu hvs, ?_⟩
    intro x
    rw [mem_foldl_addTok]
    by_cases hmem : key ∈ DIRECTIVES_WITHOUT_SELF
    · rw [if_pos hmem]
      simp [hmem]
    · rw [if_neg hmem]
      simp [hmem]
  · intro rules nonce isDev t key x hb hkb hx
    unfold buildCspTable at hb
    cases hm : buildCspMerged rules nonce isDev with
    | none => rw [hm] at hb; simp at hb
    | some m =>
      rw [hm] at hb
      have hpm : propagate m = t := Option.some.inj hb
      have hne1 : key ≠ "style-src-elem" := by
        rintro rfl
        have h1 := baseTable_hasKey nonce isDev "style-src-elem" (by decide)
        rw [hkb] at h1
        simp at h1
      have hne2 : key ≠ "script-src-elem" := by
        rintro rfl
        have h1 := baseTable_hasKey nonce isDev "script-src-elem" (by decide)
        rw [hkb] at h1
        simp at h1
      have ht : tokensT t key = tokensT m key := by
        rw [← hpm]
        unfold propagate
        rw [copyPair_tokensT_ne _ "script-src" "script-src-elem" key hne2,
          copyPair_tokensT_ne _ "style-src" "style-src-elem" key hne1]
      rw [ht] at hx
      rcases mergeAllRules_mem_subset rules (baseTable nonce isDev) m hm key x hx with
        hx0 | hadd
      · rw [tokensT_of_not_hasKey _ _ hkb] at hx0
        simp at hx0
      · exact hadd

theorem C5_missing_directive_init_amended_witness :
    (∃ out, getD (mergeDirectivesWithDefaults (getDefaultCspDirectives false none)
        [[("foo-src", RuleValue.str "https://a.example")]]) "foo-src" = some out ∧
      ∀ x, x ∈ out ↔
        ("foo-src" ∉ DIRECTIVES_WITHOUT_SELF ∧ x = "'self'") ∨ x ∈ ["https://a.example"]) ∧
    rulesAdd [[("script-src-attr", RuleValue.str "x y")]] "script-src-attr" "y" :=
  ⟨C5_missing_directive_init_amended.1 (getDefaultCspDirectives false none)
      [[("foo-src", RuleValue.str "https://a.example")]] "foo-src" ["https://a.example"]
      rfl rfl (by decide),
    C5_missing_directive_init_amended.2 [[("script-src-attr", RuleValue.str "x y")]]
      "n" false _ "script-src-attr" "y" rfl rfl (by decide)⟩

/-- C5 counterexample: `buildCspHeader` initializes the missing directive
`script-src-attr` (not in the exclusion list) to the empty list and never
adds `'self'` — the rule `{"script-src-attr": "'unsafe-inline'"}` yields
exactly `["'unsafe-inline'"]`, refuting the claim for that cited path. -/
theorem C5_counterexample :
    tokensT ((buildCspTable [[("script-src-attr", RuleValue.str "'unsafe-inline'")]]
        "n" false).getD []) "script-src-attr" = ["'unsafe-inline'"] ∧
    "script-src-attr" ∉ DIRECTIVES_WITHOUT_SELF ∧
    hasKey (baseTable "n" false) "script-src-attr" = false ∧
    "'self'" ∉ tokensT ((buildCspTable [[("script-src-attr", RuleValue.str "'unsafe-inline'")]]
        "n" false).getD []) "script-src-attr" :=
  ⟨rfl, by decide, rfl, by decide⟩

/-- C9 (amended): in the `mergeCspRules` path every token that reaches a
merged directive set is trim-fixed — list elements are trimmed, string
values are split into whitespace-free words, and boolean/empty values
contribute the empty token.  (`buildCspHeader` only filters list elements
and does not trim the survivors; see the counterexample.) -/
theorem C9_mergeCspRules_tokens_trimmed (rules : List CspRule) (key : String)
    (s : List String) (h : getD (mergeCspRules rules) key = some s) :
    ∀ x ∈ s, jsTrim x = x := by
  intro x hx
  have hx' : x ∈ tokensT (mergeCspRules rules) key := by
    unfold tokensT
    rw [h]
    exact hx
  rw [mergeCspRules_mem rules key x] at hx'
  obtain ⟨-, r, -, v, -, hxv⟩ := hx'
  exact normMerge_trim_fixed v x hxv

theorem C9_mergeCspRules_tokens_trimmed_witness :
    jsTrim "https://f.example" = "https://f.example" :=
  C9_mergeCspRules_tokens_trimmed [[("font-src", RuleValue.list ["  https://f.example  "])]]
    "font-src" ["https://f.example"] rfl "https://f.example" (by decide)

/-- C9 counterexample: `buildCspHeader` keeps an array element's surrounding
whitespace — the token `" https://x "` reaches the merged `img-src` set
untrimmed, refuting the claim that every token in each core merge path is
trimmed. -/
theorem C9_untrimmed_counterexample :
    " https://x " ∈ tokensT
        ((buildCspTable [[("img-src", RuleValue.list [" https://x "])]] "n" false).getD [])
        "img-src" ∧
    jsTrim " https://x " = "https://x" := by
  constructor
  · have he : tokensT
        ((buildCspTable [[("img-src", RuleValue.list [" https://x "])]] "n" false).getD [])
        "img-src" = ["'self'", "blob:", "data:", " https://x "] := rfl
    rw [he]
    simp
  · rfl

/-- C6 (amended): boolean directive handling holds on the
`mergeCspRules` + `generateSecurityHeaders` path: for a boolean directive
key (absent from the defaults and in the no-implicit-self list), a rule
value of `true` or `""` yields the bare directive name as its own segment
of the serialized header (its merged set is exactly the empty-token
singleton), and all-`false` values leave the directive out of the merged
table entirely.  `buildCspHeader` deviates: any boolean value (true or
false) makes its merge loop throw, and `""` yields the directive name with
a trailing space (see the counterexample). -/
theorem C6_boolean_directives_amended (rules : List CspRule) (opts : SecurityOptions)
    (boolKey : String) (hsk : ¬skipKey boolKey)
    (hdk : hasKey (getDefaultCspDirectives opts.isDev opts.nonce) boolKey = false)
    (hws : boolKey ∈ DIRECTIVES_WITHOUT_SELF)
    (hty : ∀ r ∈ rules, ∀ v, (boolKey, v) ∈ r →
      v = RuleValue.boolean true ∨ v = RuleValue.boolean false ∨ v = RuleValue.str "") :
    ((∃ r ∈ rules, (boolKey, RuleValue.boolean true) ∈ r ∨ (boolKey, RuleValue.str "") ∈ r) →
      getD (mergeDirectivesWithDefaults (getDefaultCspDirectives opts.isDev opts.nonce) rules)
          boolKey = some [""] ∧
        boolKey ∈ generatedCspSegments rules opts) ∧
    ((∀ r ∈ rules, ∀ v, (boolKey, v) ∈ r → v = RuleValue.boolean false) →
      hasKey (mergeDirectivesWithDefaults (getDefaultCspDirectives opts.isDev opts.nonce) rules)
          boolKey = false) ∧
    (∀ (rules' : List CspRule) (nonce' : String) (isDev' : Bool) (b : Bool),
      (∃ r ∈ rules', (boolKey, RuleValue.boolean b) ∈ r) →
      buildCspTable rules' nonce' isDev' = none) := by
  refine ⟨?_, ?_, ?_⟩
  · rintro ⟨r, hr, hocc⟩
    have hhk : hasKey (mergeCspRules rules) boolKey = true := by
      rw [mergeCspRules_hasKey]
      refine ⟨hsk, r, hr, ?_⟩
      rcases hocc with h | h
      · exact ⟨_, h⟩
      · exact ⟨_, h⟩
    have hgd := tokensT_eq_of_hasKey _ _ hhk
    have hsub : ∀ x ∈ tokensT (mergeCspRules rules) boolKey, x = "" := by
      intro x hx
      rw [mergeCspRules_mem] at hx
      obtain ⟨-, r', hr', v, hv, hxv⟩ := hx
      rcases hty r' hr' v hv with rfl | rfl | rfl
      · simpa [normMerge] using hxv
      · simp [normMerge] at hxv
      · simpa [normMerge] using hxv
    have hmem : "" ∈ tokensT (mergeCspRules rules) boolKey := by
      rw [mergeCspRules_mem]
      refine ⟨hsk, r, hr, ?_⟩
      rcases hocc with h | h
      · exact ⟨_, h, by simp [normMerge]⟩
      · exact ⟨_, h, by simp [normMerge]⟩
    have hs : tokensT (mergeCspRules rules) boolKey = [""] :=
      list_eq_singleton_of_nodup _ "" (mergeCspRules_values_nodup rules _ _ hgd) hsub hmem
    rw [hs] at hgd
    have hout := mergeDWD_getD_new (getDefaultCspDirectives opts.isDev opts.nonce) rules
      boolKey [""] hdk hgd (by simp)
    rw [if_pos hws] at hout
    rw [show ([""] : List String).foldl addTok [] = [""] from rfl] at hout
    refine ⟨hout, ?_⟩
    unfold generatedCspSegments
    exact List.mem_map.mpr ⟨(boolKey, [""]), getD_mem _ _ _ hout, serializeEntry_boolean boolKey⟩
  · intro h2
    apply mergeDWD_hasKey_false _ _ _ hdk
    cases hk : hasKey (mergeCspRules rules) boolKey with
    | false => exact Or.inl (hasKey_false_getD_none _ _ hk)
    | true =>
      right
      have hgd := tokensT_eq_of_hasKey _ _ hk
      have hempty : tokensT (mergeCspRules rules) boolKey = [] := by
        rw [List.eq_nil_iff_forall_not_mem]
        intro x hx
        rw [mergeCspRules_mem] at hx
        obtain ⟨-, r', hr', v, hv, hxv⟩ := hx
        have hvf := h2 r' hr' v hv
        subst hvf
        simp [normMerge] at hxv
      rw [hempty] at hgd
      exact hgd
  · intro rules' nonce' isDev' b hex
    exact buildCspTable_boolean_throws rules' nonce' isDev' boolKey b hsk hex

theorem C6_boolean_directives_amended_witness :
    "upgrade-insecure-requests" ∈ generatedCspSegments
      [[("upgrade-insecure-requests", RuleValue.boolean true)]] {} :=
  ((C6_boolean_directives_amended [[("upgrade-insecure-requests", RuleValue.boolean true)]] {}
      "upgrade-insecure-requests" (by decide) rfl (by decide)
      (by
        intro r hr v hv
        rcases List.mem_cons.mp hr with rfl | hnil
        · rcases List.mem_cons.mp hv with he | hnil2
          · injection he with h1 h2
            exact Or.inl h2
          · simp at hnil2
        · simp at hnil)).1
    ⟨_, List.mem_cons_self .., Or.inl (List.mem_cons_self ..)⟩).2

/-- C6 counterexample: in `buildCspHeader`, setting the boolean directive
`upgrade-insecure-requests` to `true` throws a TypeError (no header is
produced), and setting it to `""` produces the directive name followed by a
trailing space instead of the bare name — refuting the claim for the
`buildCspHeader` path. -/
theorem C6_counterexample :
    buildCspTable [[("upgrade-insecure-requests", RuleValue.boolean true)]] "n" false
        = none ∧
    "upgrade-insecure-requests " ∈ cspSegments
      ((buildCspTable [[("upgrade-insecure-requests", RuleValue.str "")]] "n" false).getD
        []) ∧
    "upgrade-insecure-requests" ∉ cspSegments
      ((buildCspTable [[("upgrade-insecure-requests", RuleValue.str "")]] "n" false).getD
        []) :=
  ⟨rfl, by decide, by decide⟩

theorem copyStep_congr (key g : String) (hg : g ≠ key) (acc1 acc2 : Table) (s : String)
    (h : ∀ j, j ≠ key → getD acc1 j = getD acc2 j) :
    ∀ j, j ≠ key → getD (copyStep g acc1 s) j = getD (copyStep g acc2 s) j := by
  intro j hj
  have hgt : tokensT acc1 g = tokensT acc2 g := by
    unfold tokensT
    rw [h g hg]
  unfold copyStep
  rw [hgt]
  by_cases hexcl : g = "script-src-elem" ∧ s = "'unsafe-eval'"
  · rw [if_pos hexcl, if_pos hexcl]
    exact h j hj
  · rw [if_neg hexcl, if_neg hexcl]
    by_cases hs : s ∈ tokensT acc2 g
    · rw [if_pos hs, if_pos hs]
      exact h j hj
    · rw [if_neg hs, if_neg hs]
      by_cases hjg : j = g
      · subst hjg
        rw [getD_setD_self, getD_setD_self]
      · rw [getD_setD_ne _ g j _ (fun hh => hjg hh.symm),
          getD_setD_ne _ g j _ (fun hh => hjg hh.symm)]
        exact h j hj

theorem foldl_copyStep_congr (bs : List String) (key g : String) (hg : g ≠ key) :
    ∀ (acc1 acc2 : Table), (∀ j, j ≠ key → getD acc1 j = getD acc2 j) →
      ∀ j, j ≠ key →
        getD (bs.foldl (copyStep g) acc1) j = getD (bs.foldl (copyStep g) acc2) j := by
  induction bs with
  | nil => intro acc1 acc2 h; exact h
  | cons s rest ih =>
    intro acc1 acc2 h
    exact ih (copyStep g acc1 s) (copyStep g acc2 s) (copyStep_congr key g hg acc1 acc2 s h)

theorem copyPair_congr (u1 u2 : Table) (key b g : String) (hb : b ≠ key) (hg : g ≠ key)
    (h : ∀ j, j ≠ key → getD u1 j = getD u2 j) :
    ∀ j, j ≠ key → getD (copyPair u1 b g) j = getD (copyPair u2 b g) j := by
  intro j hj
  unfold copyPair
  rw [h b hb, h g hg]
  cases h2 : getD u2 b with
  | none => exact h j hj
  | some bs =>
    cases h3 : getD u2 g with
    | none => exact h j hj
    | some gs => exact foldl_copyStep_congr bs key g hg u1 u2 h j hj

theorem propagate_congr (u1 u2 : Table) (key : String)
    (h1 : key ≠ "style-src") (h2 : key ≠ "style-src-elem")
    (h3 : key ≠ "script-src") (h4 : key ≠ "script-src-elem")
    (h : ∀ j, j ≠ key → getD u1 j = getD u2 j) :
    ∀ j, j ≠ key → getD (propagate u1) j = getD (propagate u2) j := by
  unfold propagate
  apply copyPair_congr _ _ key _ _ (fun hh => h3 hh.symm) (fun hh => h4 hh.symm)
  exact copyPair_congr u1 u2 key _ _ (fun hh => h1 hh.symm) (fun hh => h2 hh.symm) h

/-- C4 (amended): an unrecognized rule key is not an error, but it is not
ignored either — the merge loop of `buildCspHeader` creates it as a new
directive that appears in the output table, while every other directive's
value stays exactly as in the rule-free build. -/
theorem C4_unknown_keys_merged (key : String) (v : RuleValue) (vs0 : List String)
    (nonce : String) (isDev : Bool)
    (hk : key ∉ recognizedDirectiveKeys) (hk2 : ¬skipKey key)
    (hv : normBuild v = some vs0) :
    ∃ t t0, buildCspTable [[(key, v)]] nonce isDev = some t ∧
      buildCspTable [] nonce isDev = some t0 ∧
      hasKey t key = true ∧
      ∀ k', k' ≠ key → getD t k' = getD t0 k' := by
  have hnb : isBoolV v = false := by
    cases v with
    | boolean b => simp [normBuild] at hv
    | str s => rfl
    | list vs => rfl
  obtain ⟨m, hm⟩ := Option.isSome_iff_exists.mp
    ((mergeField_isSome (baseTable nonce isDev) key v).mpr (Or.inr hnb))
  have hbuild : buildCspTable [[(key, v)]] nonce isDev = some (propagate m) := by
    unfold buildCspTable buildCspMerged
    rw [mergeAllRules_cons, mergeRule_cons, hm]
    rfl
  refine ⟨propagate m, propagate (baseTable nonce isDev), hbuild, rfl, ?_, ?_⟩
  · unfold propagate
    rw [copyPair_hasKey, copyPair_hasKey]
    exact mergeField_hasKey_self (baseTable nonce isDev) key v m hk2 hm
  · have hfour : ∀ n ∈ recognizedDirectiveKeys, key ≠ n := by
      intro n hn he
      subst he
      exact hk hn
    apply propagate_congr m (baseTable nonce isDev) key
      (hfour _ (by decide)) (hfour _ (by decide)) (hfour _ (by decide)) (hfour _ (by decide))
    intro j hj
    exact mergeField_getD_ne (baseTable nonce isDev) key v j m hj hm

theorem C4_unknown_keys_merged_witness :
    ∃ t t0, buildCspTable [[("foo", RuleValue.str "bar")]] "n" false = some t ∧
      buildCspTable [] "n" false = some t0 ∧
      hasKey t "foo" = true ∧
      ∀ k', k' ≠ "foo" → getD t k' = getD t0 k' :=
  C4_unknown_keys_merged "foo" (RuleValue.str "bar") ["bar"] "n" false (by decide)
    (by decide) rfl

/-- C4 counterexample: an unknown key is not ignored — the rule
`{"foo": "bar"}` puts the segment `"foo bar"` into the serialized output of
`buildCspHeader`, contradicting the claim that unrecognized keys never
appear in the output header string. -/
theorem C4_counterexample :
    "foo bar" ∈ cspSegments
        ((buildCspTable [[("foo", RuleValue.str "bar")]] "n" false).getD []) ∧
    "foo" ∉ recognizedDirectiveKeys :=
  ⟨by decide, by decide⟩

/-- C8 (amended): `generateSecurityHeaders` always includes a
`Strict-Transport-Security` entry — in development as well as in production
— with the caller override or the preload default (the production-only
conditional belongs to the middleware, not to this function); it includes
`x-nonce` exactly when a non-empty nonce was supplied; and the other fixed
entries are always present, with caller-supplied `headerConfig` values
overriding the defaults. -/
theorem C8_security_headers_amended (rules : List CspRule) (opts : SecurityOptions) :
    ("Strict-Transport-Security",
        finalConfigField opts.headerConfig (·.strictTransportSecurity)
          "max-age=31536000; includeSubDomains; preload") ∈ generateSecurityHeaders rules opts ∧
    ((∃ n, ("x-nonce", n) ∈ generateSecurityHeaders rules opts) ↔
      (∃ n, opts.nonce = some n ∧ n ≠ "")) ∧
    ("X-Frame-Options", finalConfigField opts.headerConfig (·.xFrameOptions) "DENY")
        ∈ generateSecurityHeaders rules opts ∧
    ("X-Content-Type-Options",
        finalConfigField opts.headerConfig (·.xContentTypeOptions) "nosniff")
        ∈ generateSecurityHeaders rules opts ∧
    ("Referrer-Policy",
        finalConfigField opts.headerConfig (·.referrerPolicy) "strict-origin-when-cross-origin")
        ∈ generateSecurityHeaders rules opts ∧
    ("X-XSS-Protection",
        finalConfigField opts.headerConfig (·.xXssProtection) "1; mode=block")
        ∈ generateSecurityHeaders rules opts ∧
    ("Permissions-Policy",
        finalConfigField opts.headerConfig (·.permissionsPolicy) defaultPermissionsPolicy)
        ∈ generateSecurityHeaders rules opts := by
  obtain ⟨dev, non, hcfg⟩ := opts
  refine ⟨by simp [generateSecurityHeaders], ?_, by simp [generateSecurityHeaders],
    by simp [generateSecurityHeaders], by simp [generateSecurityHeaders],
    by simp [generateSecurityHeaders], by simp [generateSecurityHeaders]⟩
  cases non with
  | none =>
    constructor
    · rintro ⟨n, hn⟩
      cases hx : (hcfg.getD {}).xPoweredBy with
      | none => simp [generateSecurityHeaders, truthyNonce, hx] at hn
      | some pv => simp [generateSecurityHeaders, truthyNonce, hx] at hn
    · rintro ⟨n, hn, -⟩
      cases hn
  | some n0 =>
    by_cases h0 : n0 = ""
    · subst h0
      constructor
      · rintro ⟨n, hn⟩
        cases hx : (hcfg.getD {}).xPoweredBy with
        | none => simp [generateSecurityHeaders, truthyNonce, hx] at hn
        | some pv => simp [generateSecurityHeaders, truthyNonce, hx] at hn
      · rintro ⟨n, hn, hne⟩
        cases hn
        exact absurd rfl hne
    · constructor
      · intro _
        exact ⟨n0, rfl, h0⟩
      · intro _
        refine ⟨n0, ?_⟩
        simp [generateSecurityHeaders, truthyNonce, h0]

/-- C8 counterexample: the original claim says `Strict-Transport-Security`
is present only in production and never in development, and that `x-nonce`
is present exactly when a nonce was supplied.  The code includes HSTS in
development too, and drops `x-nonce` for a supplied empty nonce. -/
theorem C8_counterexample :
    (∃ v, ("Strict-Transport-Security", v)
        ∈ generateSecurityHeaders [] { isDev := true }) ∧
    (∀ n, ("x-nonce", n) ∉ generateSecurityHeaders [] { nonce := some "" }) := by
  constructor
  · exact ⟨"max-age=31536000; includeSubDomains; preload",
      by simp [generateSecurityHeaders, finalConfigField]⟩
  · intro n hn
    simp [generateSecurityHeaders, truthyNonce, finalConfigField] at hn

/-- C7: merge order independence for additive rules — if no field of rule
`A` or `B` normalizes to exactly the single token `'none'`, then building
with `[A, B]` and with `[B, A]` (same nonce and dev flag) succeeds together
and yields, for every directive, the same key presence and the same set of
tokens (output order may differ). -/
theorem C7_merge_order_independent (A B : CspRule) (nonce : String) (isDev : Bool)
    (hnfA : noneFreeRule A) (hnfB : noneFreeRule B)
    (t1 : Table) (h1 : buildCspTable [A, B] nonce isDev = some t1) :
    ∃ t2, buildCspTable [B, A] nonce isDev = some t2 ∧
      (∀ k, hasKey t1 k = hasKey t2 k) ∧
      (∀ k x, x ∈ tokensT t1 k ↔ x ∈ tokensT t2 k) := by
  unfold buildCspTable buildCspMerged at h1 ⊢
  cases hm1 : mergeAllRules (baseTable nonce isDev) [A, B] with
  | none => rw [hm1] at h1; simp at h1
  | some m1 =>
    rw [hm1] at h1
    have hp1 : propagate m1 = t1 := Option.some.inj h1
    have hwf : ∀ r ∈ [A, B], wellFormedRule r :=
      (mergeAllRules_isSome (baseTable nonce isDev) [A, B]).mp (by rw [hm1]; rfl)
    have hwf2 : ∀ r ∈ [B, A], wellFormedRule r := by
      intro r hr
      apply hwf
      rcases List.mem_cons.mp hr with rfl | hr2
      · exact List.mem_cons_of_mem _ (List.mem_cons_self ..)
      · rcases List.mem_cons.mp hr2 with rfl | hr3
        · exact List.mem_cons_self ..
        · simp at hr3
    have hsome2 : (mergeAllRules (baseTable nonce isDev) [B, A]).isSome = true :=
      (mergeAllRules_isSome _ _).mpr hwf2
    obtain ⟨m2, hm2⟩ := Option.isSome_iff_exists.mp hsome2
    have hnf12 : ∀ r ∈ [A, B], noneFreeRule r := by
      intro r hr
      rcases List.mem_cons.mp hr with rfl | hr2
      · exact hnfA
      · rcases List.mem_cons.mp hr2 with rfl | hr3
        · exact hnfB
        · simp at hr3
    have hnf21 : ∀ r ∈ [B, A], noneFreeRule r := by
      intro r hr
      rcases List.mem_cons.mp hr with rfl | hr2
      · exact hnfB
      · rcases List.mem_cons.mp hr2 with rfl | hr3
        · exact hnfA
        · simp at hr3
    have hkeq : ∀ k, hasKey m1 k = hasKey m2 k := by
      intro k
      apply bool_eq_of_iff
      rw [mergeAllRules_hasKey [A, B] (baseTable nonce isDev) m1 hm1 k,
        mergeAllRules_hasKey [B, A] (baseTable nonce isDev) m2 hm2 k,
        rulesMention_pair_comm A B k]
    have hmeq : ∀ k x, x ∈ tokensT m1 k ↔ x ∈ tokensT m2 k := by
      intro k x
      rw [mergeAllRules_mem_tokens [A, B] (baseTable nonce isDev) m1 hnf12 hm1 k x,
        mergeAllRules_mem_tokens [B, A] (baseTable nonce isDev) m2 hnf21 hm2 k x,
        rulesTouch_pair_comm A B k, rulesAdd_pair_comm A B k x]
    obtain ⟨hpk, hpm⟩ := propagate_equiv m1 m2 hkeq hmeq
    refine ⟨propagate m2, by rw [hm2]; rfl, ?_, ?_⟩
    · intro k
      rw [← hp1]
      exact hpk k
    · intro k x
      rw [← hp1]
      exact hpm k x

theorem C7_merge_order_independent_witness :
    ∃ t2, buildCspTable
        [[("img-src", RuleValue.str "https://a.example")],
         [("img-src", RuleValue.list ["https://b.example"])]] "n" false = some t2 ∧
      (∀ k, hasKey ((buildCspTable
          [[("img-src", RuleValue.list ["https://b.example"])],
           [("img-src", RuleValue.str "https://a.example")]] "n" false).getD []) k
        = hasKey t2 k) ∧
      (∀ k x, x ∈ tokensT ((buildCspTable
          [[("img-src", RuleValue.list ["https://b.example"])],
           [("img-src", RuleValue.str "https://a.example")]] "n" false).getD []) k
        ↔ x ∈ tokensT t2 k) :=
  C7_merge_order_independent
    [("img-src", RuleValue.list ["https://b.example"])]
    [("img-src", RuleValue.str "https://a.example")]
    "n" false (by unfold noneFreeRule; decide) (by unfold noneFreeRule; decide) _ rfl

/-- C2: after all rule merging in `buildCspHeader` is complete, the
propagation step copies every `style-src` token into `style-src-elem`, and
every `script-src` token except `'unsafe-eval'` into `script-src-elem`;
`'unsafe-eval'` itself is never copied, so it is in `script-src-elem` after
propagation exactly when the merge already put it there — in particular not
in dev mode, where it sits only in `script-src`. -/
theorem C2_granular_propagation (rules : List CspRule) (nonce : String) (isDev : Bool)
    (m : Table) (h : buildCspMerged rules nonce isDev = some m) :
    (∀ x ∈ tokensT m "style-src", x ∈ tokensT (propagate m) "style-src-elem") ∧
    (∀ x ∈ tokensT m "script-src", x ≠ "'unsafe-eval'" →
      x ∈ tokensT (propagate m) "script-src-elem") ∧
    ("'unsafe-eval'" ∈ tokensT (propagate m) "script-src-elem" ↔
      "'unsafe-eval'" ∈ tokensT m "script-src-elem") := by
  have hkey : ∀ name ∈ baselineDirectiveNames, hasKey m name = true := by
    intro name hname
    rw [mergeAllRules_hasKey rules (baseTable nonce isDev) m h name]
    exact Or.inl (baseTable_hasKey nonce isDev name hname)
  have hss : hasKey m "style-src" = true := hkey _ (by decide)
  have hsse : hasKey m "style-src-elem" = true := hkey _ (by decide)
  have hcs : hasKey m "script-src" = true := hkey _ (by decide)
  have hcse : hasKey m "script-src-elem" = true := hkey _ (by decide)
  have hprop : propagate m
      = copyPair (copyPair m "style-src" "style-src-elem") "script-src" "script-src-elem" := rfl
  set s1 := copyPair m "style-src" "style-src-elem" with hs1
  have h1cs : hasKey s1 "script-src" = true := by rw [hs1, copyPair_hasKey]; exact hcs
  have h1cse : hasKey s1 "script-src-elem" = true := by rw [hs1, copyPair_hasKey]; exact hcse
  have ht1cs : tokensT s1 "script-src" = tokensT m "script-src" := by
    rw [hs1]
    exact copyPair_tokensT_ne m "style-src" "style-src-elem" "script-src" (by decide)
  have ht1cse : tokensT s1 "script-src-elem" = tokensT m "script-src-elem" := by
    rw [hs1]
    exact copyPair_tokensT_ne m "style-src" "style-src-elem" "script-src-elem" (by decide)
  refine ⟨?_, ?_, ?_⟩
  · intro x hx
    have hx1 : x ∈ tokensT s1 "style-src-elem" := by
      rw [hs1]
      exact (copyPair_mem_g m "style-src" "style-src-elem" hss hsse x).mpr
        (Or.inr ⟨hx, by rintro ⟨hg, -⟩; exact absurd hg (by decide)⟩)
    rw [hprop,
      copyPair_tokensT_ne s1 "script-src" "script-src-elem" "style-src-elem" (by decide)]
    exact hx1
  · intro x hx hxne
    rw [hprop]
    refine (copyPair_mem_g s1 "script-src" "script-src-elem" h1cs h1cse x).mpr (Or.inr ⟨?_, ?_⟩)
    · rw [ht1cs]; exact hx
    · rintro ⟨-, hh⟩; exact hxne hh
  · rw [hprop, copyPair_mem_g s1 "script-src" "script-src-elem" h1cs h1cse _, ht1cse]
    constructor
    · rintro (hx | ⟨-, hne⟩)
      · exact hx
      · exact absurd ⟨rfl, rfl⟩ hne
    · exact Or.inl

theorem C2_granular_propagation_witness :
    ((∀ x ∈ tokensT (baseTable "n" true) "style-src",
        x ∈ tokensT (propagate (baseTable "n" true)) "style-src-elem") ∧
      (∀ x ∈ tokensT (baseTable "n" true) "script-src", x ≠ "'unsafe-eval'" →
        x ∈ tokensT (propagate (baseTable "n" true)) "script-src-elem") ∧
      ("'unsafe-eval'" ∈ tokensT (propagate (baseTable "n" true)) "script-src-elem" ↔
        "'unsafe-eval'" ∈ tokensT (baseTable "n" true) "script-src-elem")) ∧
    "'unsafe-eval'" ∈ tokensT (baseTable "n" true) "script-src" ∧
    "'unsafe-eval'" ∉ tokensT (propagate (baseTable "n" true)) "script-src-elem" :=
  ⟨C2_granular_propagation [] "n" true (baseTable "n" true) rfl, by decide, by decide⟩

theorem C10_baseline_directives_persist_witness :
    ∃ vs, getD (propagate (baseTable "n" false)) "script-src" = some vs ∧
      ("script-src" ++ " " ++ String.intercalate " " vs)
        ∈ cspSegments (propagate (baseTable "n" false)) :=
  C10_baseline_directives_persist [] "n" false (propagate (baseTable "n" false)) rfl
    "script-src" (by decide)

end StartSecure
